import Mathlib

/-!
Verification of the Spores grid engine (src/js): a shallow embedding of the
tile data model, word scoring, selection path handling, the explosion/cascade
chain, spore distribution, and grid compaction/refill, together with proofs of
the specified properties.

Conventions of the embedding:
* JS objects with reference identity (tiles) are modelled as records carrying
  an `id` field standing for the object identity; the cascade engine, which
  mutates shared tiles, uses a heap `Nat → TileState` indexed by tile ids and
  grid cells holding `Option Nat` (tile ids).
* `null` grid cells are `Option.none`.
* JS floating point parameters (`sporeDistribution`, `wordLengthFactor`) are
  modelled as rationals; `Math.floor`/`Math.ceil` become `Int.floor`/`Int.ceil`.
* `Math.random`-driven draws are abstracted by an index oracle `Nat → Nat`:
  the cumulative-weight sampling in `spreadSporesWithAdjacency` (and its
  index fallback) always selects some member of the eligible-candidate list,
  so every concrete run corresponds to some oracle; theorems quantify over
  all oracles.
* Asynchronous scheduling (`delayedCall`) only paces the chain; the chain is
  modelled as a step function `chainStep` iterated by `runChain`.
-/

namespace Spores

/-- Per-tile state, from `class Tile` in game-scene.js: letter, grid
coordinates, spore count and spore threshold.  The `id` field models the JS
object identity of the tile (reference equality `===` is `id`-respecting
record equality). -/
structure TileState where
  id : Nat
  letter : Char
  gridX : Nat
  gridY : Nat
  sporeCount : Nat
  sporeThreshold : Nat
deriving DecidableEq

/-- The runtime-configurable game parameters record from grid.js
(`this.gameParameters`). -/
structure GameParams where
  sporeCount : Nat
  sporeThreshold : Nat
  sporeDistribution : Rat
  wordLengthFactor : Rat
deriving DecidableEq

/-- The default parameters set in the Grid constructor. -/
def defaultParams : GameParams :=
  { sporeCount := 8, sporeThreshold := 2,
    sporeDistribution := 3/2, wordLengthFactor := 3/2 }

/-- Scrabble point values from `LetterData.points` in game-scene.js;
`getPointValue` returns `this.points[letter] || 0`, i.e. 0 for a letter not in
the table. -/
def letterPoints (c : Char) : Nat :=
  match c with
  | 'A' => 1 | 'B' => 3 | 'C' => 3 | 'D' => 2 | 'E' => 1 | 'F' => 4 | 'G' => 2
  | 'H' => 4 | 'I' => 1 | 'J' => 8 | 'K' => 5 | 'L' => 1 | 'M' => 3 | 'N' => 1
  | 'O' => 1 | 'P' => 3 | 'Q' => 10 | 'R' => 1 | 'S' => 1 | 'T' => 1 | 'U' => 1
  | 'V' => 4 | 'W' => 4 | 'X' => 8 | 'Y' => 4 | 'Z' => 10
  | _ => 0

/-- `LetterData.getPointValue(letter)`. -/
def getPointValue (c : Char) : Nat := letterPoints c

/-- `Tile.addSpores(count)` from game-scene.js: adds `count` to the tile's
spore count, and reports whether the resulting count has reached the tile's
spore threshold (the "should explode" return value). -/
def TileState.addSpores (t : TileState) (count : Nat) : TileState × Bool :=
  let t' : TileState := { t with sporeCount := t.sporeCount + count }
  (t', decide (t'.sporeThreshold ≤ t'.sporeCount))

/-- `Grid.calculateWordScore()` from grid.js: sum the selected tiles' letter
point values; if at least 6 tiles are selected multiply by the configurable
`wordLengthFactor`; return `Math.floor` of the result. -/
def calculateWordScore (selectedTiles : List TileState) (params : GameParams) : Int :=
  let base : Rat := ((selectedTiles.map (fun t => (letterPoints t.letter : Rat))).sum)
  let score : Rat :=
    if 6 ≤ selectedTiles.length then base * params.wordLengthFactor else base
  ⌊score⌋

/-! ### Selection path (grid.js pointer handlers) -/

/-- `Grid.isAdjacent(tile1, tile2)` from grid.js / grid-helper.js: true when the
two tiles are distinct references and both their row and column differences are
at most 1 (Chebyshev distance at most 1). -/
def isAdjacent (tile1 tile2 : TileState) : Bool :=
  let rowDiff := ((tile1.gridY : Int) - (tile2.gridY : Int)).natAbs
  let colDiff := ((tile1.gridX : Int) - (tile2.gridX : Int)).natAbs
  decide (tile1 ≠ tile2) && (decide (rowDiff ≤ 1) && decide (colDiff ≤ 1))

/-- `Grid.selectTileWithAnimation(tile)`: append the tile to the selection if
it is not already selected. -/
def selectTileWithAnimation (sel : List TileState) (tile : TileState) : List TileState :=
  if tile ∈ sel then sel else sel ++ [tile]

/-- `Grid.unselectTileWithAnimation(tile)`: `indexOf` followed by
`splice(index, 1)`, i.e. remove the first occurrence of the tile. -/
def unselectTileWithAnimation (sel : List TileState) (tile : TileState) : List TileState :=
  sel.erase tile

/-- The selection logic of a `pointerdown` inside the grid: clear the selection
and select the tile under the pointer. -/
def beginSelection (tile : TileState) : List TileState :=
  selectTileWithAnimation [] tile

/-- The core selection-extension step of `Grid.pointerMoveHandler` (grid.js
lines 355-389): when the pointer reaches tile `directTile`, if it is adjacent
to the last selected tile then either append it (not yet selected), undo the
last selection (it is the second-to-last selected tile), or do nothing;
non-adjacent tiles are ignored.  The JS `index === this.selectedTiles.length -
2` comparison is integer arithmetic, hence the casts to `Int`. -/
def extendStep (sel : List TileState) (directTile : TileState) : List TileState :=
  match sel.getLast? with
  | none => sel
  | some lastSelectedTile =>
    if isAdjacent lastSelectedTile directTile then
      if directTile ∈ sel then
        if (sel.indexOf directTile : Int) = (sel.length : Int) - 2 then
          if 1 < sel.length then unselectTileWithAnimation sel lastSelectedTile else sel
        else sel
      else selectTileWithAnimation sel directTile
    else sel

/-- Grid cell access `this.tiles[row][col]` for the direct-tile grid
representation used by selection and refill. -/
def getCell (g : List (List (Option TileState))) (row col : Nat) : Option TileState :=
  (g.getD row []).getD col none

/-- `Math.sign` on the pointer movement delta. -/
def signQ (x : Rat) : Int :=
  if 0 < x then 1 else if x < 0 then -1 else 0

/-- The diagonal-bias branch of `Grid.pointerMoveHandler` (grid.js lines
390-427): when the pointer lingers with a diagonal movement direction, the
tile diagonally adjacent to the last selected tile in that direction is
selected provided it exists, is not already selected, differs from the tile
under the pointer, and the pointer is close enough to it (the pixel-distance
test `dist < tileSize * 0.8` is abstracted as the boolean `closeEnough`). -/
def diagExtendStep (g : List (List (Option TileState))) (sel : List TileState)
    (directTile : TileState) (dx dy : Rat) (closeEnough : Bool) : List TileState :=
  match sel.getLast? with
  | none => sel
  | some lastSelectedTile =>
    if signQ dx ≠ 0 ∧ signQ dy ≠ 0 then
      if 0 ≤ (lastSelectedTile.gridY : Int) + signQ dy ∧
         (lastSelectedTile.gridY : Int) + signQ dy < (g.length : Int) ∧
         0 ≤ (lastSelectedTile.gridX : Int) + signQ dx ∧
         (lastSelectedTile.gridX : Int) + signQ dx < (g.length : Int) then
        match getCell g ((lastSelectedTile.gridY : Int) + signQ dy).toNat
            ((lastSelectedTile.gridX : Int) + signQ dx).toNat with
        | none => sel
        | some diagTile =>
          if diagTile ∉ sel ∧ diagTile ≠ directTile ∧ closeEnough = true then
            selectTileWithAnimation sel diagTile
          else sel
      else sel
    else sel

/-! ### Grid compaction and refill (grid.js `refillGrid` / `refillColumn` /
`resetGrid`)

`LetterData.getRandomLetter()` is modelled as an infinite stream
`src : Nat → Char` of letter draws consumed in call order; the running draw
counter doubles as the fresh object id of each newly created tile. -/

/-- A tile newly created during refill (`new Tile(...)` with the current
`gameParameters.sporeThreshold` applied): the grid coordinates are assigned at
creation time, the spore count starts at 0. -/
def mkNewTile (src : Nat → Char) (params : GameParams) (k row col : Nat) : TileState :=
  { id := k, letter := src k, gridX := col, gridY := row,
    sporeCount := 0, sporeThreshold := params.sporeThreshold }

/-- The inner source-search of `refillColumn`'s compaction loop: scan
`srcRow = destRow - 1` down to 0 and return the first non-null row, i.e. the
nearest occupied row above `destRow`. -/
def findSrcRow (c : List (Option TileState)) : Nat → Option Nat
  | 0 => none
  | d + 1 => if (c.getD d none).isSome then some d else findSrcRow c d

/-- One iteration of `refillColumn`'s compaction loop at `destRow`: when the
cell is empty and an occupied cell exists above, move that tile down and
update its row coordinate. -/
def compactStep (c : List (Option TileState)) (destRow : Nat) : List (Option TileState) :=
  match c.getD destRow none with
  | some _ => c
  | none =>
    match findSrcRow c destRow with
    | none => c
    | some s =>
      match c.getD s none with
      | none => c
      | some t => (c.set destRow (some { t with gridY := destRow })).set s none

/-- The compaction loop of `refillColumn`: `destRow` from the bottom of the
column up to row 0. -/
def compactDown (c : List (Option TileState)) : Nat → List (Option TileState)
  | 0 => compactStep c 0
  | d + 1 => compactDown (compactStep c (d + 1)) d

/-- The post-compaction count of empty cells at the top of the column
(`refillColumn` counts until the first non-null tile and stops). -/
def leadingEmpty : List (Option TileState) → Nat
  | [] => 0
  | none :: rest => leadingEmpty rest + 1
  | some _ :: _ => 0

/-- The fill loop of `refillColumn`: rows `0 .. emptyCount - 1` from the top;
a non-null cell is skipped (defensively, without consuming a letter), an empty
cell receives a freshly created tile with its final coordinates. -/
def fillTopAux (colIdx : Nat) (src : Nat → Char) (params : GameParams) :
    Nat → Nat → Nat → List (Option TileState) → List (Option TileState) × Nat
  | _, 0, k, c => (c, k)
  | row, remaining + 1, k, c =>
    if (c.getD row none).isSome then fillTopAux colIdx src params (row + 1) remaining k c
    else fillTopAux colIdx src params (row + 1) remaining (k + 1)
      (c.set row (some (mkNewTile src params k row colIdx)))

/-- `Grid.refillColumn(col)` on the column's cell list (top = index 0): find
the empty rows; if there are none, do nothing; otherwise compact all surviving
tiles downward, count the empty cells remaining at the top, and fill exactly
those from the letter source. -/
def refillColumnList (c : List (Option TileState)) (colIdx : Nat) (src : Nat → Char)
    (k : Nat) (params : GameParams) : List (Option TileState) × Nat :=
  if ((List.range c.length).filter (fun r => (c.getD r none).isNone)).isEmpty then (c, k)
  else
    fillTopAux colIdx src params 0 (leadingEmpty (compactDown c (c.length - 1))) k
      (compactDown c (c.length - 1))

/-- Read the cells of column `col`, top to bottom
(`this.tiles[row][col]` for each row). -/
def getColumn (g : List (List (Option TileState))) (col : Nat) : List (Option TileState) :=
  g.map (fun row => row.getD col none)

/-- Write a column of cells back, row by row. -/
def setColumn (g : List (List (Option TileState))) (col : Nat) :
    List (Option TileState) → List (List (Option TileState)) :=
  fun cl =>
    match g, cl with
    | [], _ => []
    | r :: g', [] => r :: g'
    | r :: g', v :: cl' => r.set col v :: setColumn g' col cl'

/-- `Grid.refillColumn(col)` at grid level: the code reads and writes only the
cells `tiles[row][col]` of the given column, so it is the column-local
operation applied to that column. -/
def refillColumn (g : List (List (Option TileState))) (col : Nat) (src : Nat → Char)
    (k : Nat) (params : GameParams) : List (List (Option TileState)) × Nat :=
  let r := refillColumnList (getColumn g col) col src k params
  (setColumn g col r.1, r.2)

/-- The null-cell scan of `refillGrid` (both the initial `hasNullCells` check
and the final `anyNulls` verification scan the whole matrix). -/
def hasNullCells (g : List (List (Option TileState))) : Bool :=
  g.any (fun row => row.any (fun cell => cell.isNone))

/-- Write one cell of the grid. -/
def setCell (g : List (List (Option TileState))) (row col : Nat) (v : Option TileState) :
    List (List (Option TileState)) :=
  g.set row ((g.getD row []).set col v)

/-- One step of `refillGrid`'s defensive double-check pass: force-create a new
tile at the cell if it is still null. -/
def forceFillCell (src : Nat → Char) (params : GameParams)
    (gk : List (List (Option TileState)) × Nat) (rc : Nat × Nat) :
    List (List (Option TileState)) × Nat :=
  if (getCell gk.1 rc.1 rc.2).isNone then
    (setCell gk.1 rc.1 rc.2 (some (mkNewTile src params gk.2 rc.1 rc.2)), gk.2 + 1)
  else gk

/-- The row-major traversal order of the nested `row`/`col` loops. -/
def gridIndices (n : Nat) : List (Nat × Nat) :=
  (List.range n).flatMap (fun r => (List.range n).map (fun c => (r, c)))

/-- The defensive double-check pass of `refillGrid` (grid.js lines 1201-1240):
scan every cell in row-major order and force-create a tile wherever a null
remains. -/
def forceFillPass (g : List (List (Option TileState))) (src : Nat → Char)
    (params : GameParams) (k : Nat) : List (List (Option TileState)) × Nat :=
  (gridIndices g.length).foldl (forceFillCell src params) (g, k)

/-- `Grid.resetGrid()`: destroy every tile and regenerate the full
`n × n` grid from the letter source (row-major). -/
def resetGrid (n : Nat) (src : Nat → Char) (params : GameParams) (k : Nat) :
    List (List (Option TileState)) × Nat :=
  ((List.range n).map (fun row =>
      (List.range n).map (fun col => some (mkNewTile src params (k + row * n + col) row col))),
   k + n * n)

/-- The per-column loop of `refillGrid`: `refillColumn(col)` for each column
in order. -/
def columnsPass (g : List (List (Option TileState))) (src : Nat → Char)
    (params : GameParams) (k : Nat) : List (List (Option TileState)) × Nat :=
  (List.range g.length).foldl
    (fun acc col => refillColumn acc.1 col src acc.2 params) (g, k)

/-- `Grid.refillGrid()`: skip if there is no hole; otherwise refill every
column, run the defensive double-check pass, and finally (the delayed
verification) reset the whole grid if a hole somehow remains. -/
def refillGrid (g : List (List (Option TileState))) (src : Nat → Char)
    (params : GameParams) (k : Nat) : List (List (Option TileState)) × Nat :=
  if hasNullCells g = false then (g, k)
  else
    if hasNullCells (forceFillPass (columnsPass g src params k).1 src params
        (columnsPass g src params k).2).1 then
      resetGrid g.length src params
        (forceFillPass (columnsPass g src params k).1 src params (columnsPass g src params k).2).2
    else
      forceFillPass (columnsPass g src params k).1 src params (columnsPass g src params k).2

/-- A square `n × n` grid. -/
def squareGrid (g : List (List (Option TileState))) (n : Nat) : Prop :=
  g.length = n ∧ ∀ row ∈ g, row.length = n

/-- Row-coordinate consistency of a column's cells: the tile stored at row `i`
remembers row `i`. -/
def colRowsConsistent (c : List (Option TileState)) : Prop :=
  ∀ i t, c.getD i none = some t → t.gridY = i

/-- Reassign the row coordinates of a list of tiles to consecutive rows
starting at `base` (the destination rows of compacted survivors). -/
def reindexFrom (base : Nat) : List TileState → List TileState
  | [] => []
  | t :: ts => { t with gridY := base } :: reindexFrom (base + 1) ts

/-- The net effect of the compaction loop on a column: all empty cells on top,
the surviving tiles at the bottom in their original order with updated row
coordinates. -/
def gravN (p : List (Option TileState)) : List (Option TileState) :=
  List.replicate (p.length - (p.filterMap id).length) none ++
    (reindexFrom (p.length - (p.filterMap id).length) (p.filterMap id)).map some

/-- The selection invariant from the spec: no tile reference appears twice and
each consecutive pair of selected tiles is adjacent. -/
def validSelection (sel : List TileState) : Prop :=
  sel.Nodup ∧ sel.Chain' (fun a b => isAdjacent a b = true)

/-- Coordinate coherence of a grid: the tile stored in a cell remembers that
cell's row and column. -/
def gridCoherent (g : List (List (Option TileState))) : Prop :=
  ∀ row col t, getCell g row col = some t → t.gridY = row ∧ t.gridX = col

/-! ### Explosion / cascade chain (grid.js `explodeTiles` /
`spreadSporesWithAdjacency`)

Tiles are shared mutable objects during a chain, so the chain state uses a
heap `Nat → TileState` indexed by tile id, and grid cells hold tile ids.
`Math.random` enters only through the per-draw candidate selection: the
cumulative-weight scan (and its uniform index fallback) always selects some
member of the non-empty eligible-candidate list, so a run's draws are
abstracted by an index oracle `Nat → Nat` consuming one index per draw. -/

/-- The hard cascade limit `maxCascades` of `explodeTiles`. -/
def maxCascades : Nat := 8

/-- The state of one explosion chain: the id grid, the tile heap, the pending
queue (`tilesToExplode`), the exploded set (`tilesExploded`, as a
duplicate-free list), the cascade counter, and the count of random draws made
so far (the oracle cursor). -/
structure CascadeState where
  grid : List (List (Option Nat))
  heap : Nat → TileState
  queue : List Nat
  exploded : List Nat
  cascadeCount : Nat
  rng : Nat

/-- `this.tiles[row][col]` on the id grid. -/
def cellId (g : List (List (Option Nat))) (row col : Nat) : Option Nat :=
  (g.getD row []).getD col none

/-- Write one cell of the id grid. -/
def setCellId (g : List (List (Option Nat))) (row col : Nat) (v : Option Nat) :
    List (List (Option Nat)) :=
  g.set row ((g.getD row []).set col v)

/-- `searchRadius = Math.max(1, Math.min(Math.floor(distributionRange * 1.5), 5))`
from `spreadSporesWithAdjacency`. -/
def searchRadius (distributionRange : Rat) : Nat :=
  (max 1 (min ⌊distributionRange * (3/2)⌋ 5)).toNat

/-- Modelled from the spec: the claimed radius
`clamp(round(params.sporeDistribution * 1.5), 1, 5)` (JS rounding is
`floor(x + 1/2)`); stated for comparison with the code's `searchRadius`. -/
def claimSearchRadius (distributionRange : Rat) : Nat :=
  (max 1 (min ⌊distributionRange * (3/2) + 1/2⌋ 5)).toNat

/-- The scan order of the candidate loops: `dy` from `-r` to `r` (outer), `dx`
from `-r` to `r` (inner). -/
def candidateOffsets (r : Nat) : List (Int × Int) :=
  (List.range (2 * r + 1)).flatMap (fun (i : Nat) =>
    (List.range (2 * r + 1)).map (fun (j : Nat) => ((i : Int) - r, (j : Int) - r)))

/-- The eligible-candidate collection of `spreadSporesWithAdjacency`: every
in-bounds tile in the square neighborhood of `searchRadius` around the
explosion origin, excluding the origin cell, empty cells, tiles in the
pending queue, and tiles in the exploded set.  (The per-candidate weights
computed by the code only influence which candidate each draw picks, which is
oracle-abstracted, so they are not represented.) -/
def candidates (params : GameParams) (st : CascadeState) (originX originY : Nat) :
    List Nat :=
  (candidateOffsets (searchRadius params.sporeDistribution)).filterMap (fun dydx =>
    if dydx.2 = (0 : Int) ∧ dydx.1 = (0 : Int) then none
    else
      if 0 ≤ (originX : Int) + dydx.2 ∧ (originX : Int) + dydx.2 < (st.grid.length : Int) ∧
         0 ≤ (originY : Int) + dydx.1 ∧ (originY : Int) + dydx.1 < (st.grid.length : Int) then
        match cellId st.grid ((originY : Int) + dydx.1).toNat ((originX : Int) + dydx.2).toNat with
        | none => none
        | some tid =>
          if tid ∈ st.queue ∨ tid ∈ st.exploded then none else some tid
      else none)

/-- One spore landing on tile `tid` (`selectedTile.addSpores(1)` followed by
the threshold check): the tile's spore count increments; if it reached the
threshold and is not already queued it is enqueued, counting one new cascade
when it is not in the exploded set.  Also advances the draw cursor. -/
def applySpore (tid : Nat) (st : CascadeState) : CascadeState × Nat :=
  if ((st.heap tid).addSpores 1).2 = true ∧ tid ∉ st.queue then
    ({ st with
        heap := fun i => if i = tid then ((st.heap tid).addSpores 1).1 else st.heap i,
        queue := st.queue ++ [tid],
        rng := st.rng + 1 },
     if tid ∉ st.exploded then 1 else 0)
  else
    ({ st with
        heap := fun i => if i = tid then ((st.heap tid).addSpores 1).1 else st.heap i,
        rng := st.rng + 1 },
     0)

/-- The draw loop of `spreadSporesWithAdjacency`: `sporeCount` sequential
draws, each selecting a member of the fixed candidate list (the weighted
cumulative scan abstracted by the oracle index) and landing one spore. -/
def drawLoop (cands : List Nat) (oracle : Nat → Nat) :
    Nat → CascadeState → CascadeState × Nat
  | 0, st => (st, 0)
  | count + 1, st =>
    ((drawLoop cands oracle count
        (applySpore (cands.getD (oracle st.rng % cands.length) 0) st).1).1,
     (applySpore (cands.getD (oracle st.rng % cands.length) 0) st).2 +
       (drawLoop cands oracle count
         (applySpore (cands.getD (oracle st.rng % cands.length) 0) st).1).2)

/-- `Grid.spreadSporesWithAdjacency`: collect candidates; with no valid
target distribute nothing (and report no cascades), otherwise run the draws. -/
def spreadSporesWithAdjacency (params : GameParams) (st : CascadeState)
    (originX originY sporeCount : Nat) (oracle : Nat → Nat) : CascadeState × Nat :=
  if (candidates params st originX originY).isEmpty then (st, 0)
  else drawLoop (candidates params st originX originY) oracle sporeCount st

/-- The per-explosion spore emission of `explodeTiles`:
`Math.min(gameParameters.sporeCount, Math.ceil(tiles.length / 1.5))`, where
`tiles.length` is the originally submitted word's length for every explosion
of the chain. -/
def sporeEmission (params : GameParams) (wordLen : Nat) : Nat :=
  min params.sporeCount (Int.toNat ⌈(wordLen : Rat) / (3/2)⌉)

/-- The row-major grid scan used to recover a tile whose remembered
coordinates disagree with the grid (`explodeTiles`'s mismatch branches);
returns `(row, col)`. -/
def locateTile (g : List (List (Option Nat))) (tid : Nat) : Option (Nat × Nat) :=
  (gridIndices g.length).find? (fun rc => cellId g rc.1 rc.2 == some tid)

/-- Update a tile's remembered coordinates in the heap. -/
def heapSetPos (heap : Nat → TileState) (tid x y : Nat) : Nat → TileState :=
  fun i => if i = tid then { heap tid with gridX := x, gridY := y } else heap i

/-- The post-removal part of one explosion: compute the emission from the
triggering word's length, spread the spores around the captured origin, and
add the newly triggered cascades to the counter. -/
def explodeCore (wordLen : Nat) (params : GameParams) (oracle : Nat → Nat)
    (st : CascadeState) (gx gy : Nat) (heap1 : Nat → TileState)
    (grid1 : List (List (Option Nat))) : CascadeState :=
  { (spreadSporesWithAdjacency params { st with heap := heap1, grid := grid1 }
      gx gy (sporeEmission params wordLen) oracle).1 with
    cascadeCount :=
      (spreadSporesWithAdjacency params { st with heap := heap1, grid := grid1 }
        gx gy (sporeEmission params wordLen) oracle).1.cascadeCount +
      (spreadSporesWithAdjacency params { st with heap := heap1, grid := grid1 }
        gx gy (sporeEmission params wordLen) oracle).2 }

/-- One explosion of the dequeued tile `t` (already added to the exploded
set): verify the remembered position against the grid, correcting it by a
full scan on mismatch (skipping the tile entirely when it is nowhere in the
grid); remove the tile from its actual cell; then spread spores around the
captured (pre-correction) coordinates. -/
def chainExplode (wordLen : Nat) (params : GameParams) (oracle : Nat → Nat)
    (st : CascadeState) (t : Nat) : CascadeState :=
  if cellId st.grid (st.heap t).gridY (st.heap t).gridX = some t then
    explodeCore wordLen params oracle st (st.heap t).gridX (st.heap t).gridY st.heap
      (setCellId st.grid (st.heap t).gridY (st.heap t).gridX none)
  else
    match locateTile st.grid t with
    | none => st
    | some rc =>
      explodeCore wordLen params oracle st (st.heap t).gridX (st.heap t).gridY
        (heapSetPos st.heap t rc.2 rc.1) (setCellId st.grid rc.1 rc.2 none)

/-- One iteration of `processExplosions`: stop when the queue is empty or the
cascade counter has reached `maxCascades` (abandoning any queued tiles,
without error); skip a dequeued tile that has already exploded; otherwise
explode the dequeued tile. -/
def chainStep (wordLen : Nat) (params : GameParams) (oracle : Nat → Nat)
    (st : CascadeState) : Option CascadeState :=
  if st.queue = [] ∨ maxCascades ≤ st.cascadeCount then none
  else
    match st.queue with
    | [] => none
    | t :: rest =>
      if t ∈ st.exploded then some { st with queue := rest }
      else some (chainExplode wordLen params oracle
        { st with queue := rest, exploded := st.exploded ++ [t] } t)

/-- The whole chain, iterated with fuel (the delayed-call pacing is purely
presentational). -/
def runChain (wordLen : Nat) (params : GameParams) (oracle : Nat → Nat) :
    Nat → CascadeState → CascadeState
  | 0, st => st
  | fuel + 1, st =>
    match chainStep wordLen params oracle st with
    | none => st
    | some st' => runChain wordLen params oracle fuel st'

/-- The chain state at `explodeTiles` entry: the queue is a copy of the
submitted tiles, the exploded set is empty and the counter zero. -/
def initChain (grid : List (List (Option Nat))) (heap : Nat → TileState)
    (word : List Nat) : CascadeState :=
  { grid := grid, heap := heap, queue := word, exploded := [], cascadeCount := 0, rng := 0 }

/-- The part of `processExplosions` that runs synchronously before
`explodeTiles` returns: dequeues are processed until the first tile that is
actually found in the grid, whose `animateExplosion` defers the rest of the
chain (its callback fires only after a scheduled delay).  In the mismatch
branch the coordinate correction still happens synchronously. -/
def syncRun : Nat → CascadeState → CascadeState
  | 0, st => st
  | fuel + 1, st =>
    if st.queue = [] ∨ maxCascades ≤ st.cascadeCount then st
    else
      match st.queue with
      | [] => st
      | t :: rest =>
        if t ∈ st.exploded then syncRun fuel { st with queue := rest }
        else
          if cellId st.grid (st.heap t).gridY (st.heap t).gridX = some t then
            { st with queue := rest, exploded := st.exploded ++ [t] }
          else
            match locateTile st.grid t with
            | none => syncRun fuel { st with queue := rest, exploded := st.exploded ++ [t] }
            | some rc =>
              { st with
                  queue := rest
                  exploded := st.exploded ++ [t]
                  heap := heapSetPos st.heap t rc.2 rc.1 }

/-- The record returned by `explodeTiles` — and later delivered verbatim by
the delayed `tilesExploded` event — with `tilesExploded: tilesExploded.size`
and `cascadeCount` read at return time, i.e. after only the synchronous
prefix of the chain has run. -/
def explodeTilesReturn (st : CascadeState) : Nat × Nat :=
  ((syncRun st.queue.length st).exploded.length, (syncRun st.queue.length st).cascadeCount)

/-- The number of additional (non-word) tiles in a list. -/
def additionalCount (word : List Nat) (l : List Nat) : Nat :=
  l.countP (fun t => decide (t ∉ word))

/-- Total spore count over a list of tile ids. -/
def heapSporeTotal (ids : List Nat) (heap : Nat → TileState) : Nat :=
  (ids.map (fun i => (heap i).sporeCount)).sum

/-- The inductive invariant of one explosion chain, relative to the submitted
word's tiles: the queue is duplicate-free and disjoint from the exploded set,
every word tile is queued or exploded, the cascade counter equals the number
of non-word tiles ever enqueued (still queued or already exploded), and the
number of non-word explosions never exceeds `maxCascades`. -/
def ChainInv (word : List Nat) (st : CascadeState) : Prop :=
  st.queue.Nodup ∧
  (∀ x ∈ st.queue, x ∉ st.exploded) ∧
  (∀ w ∈ word, w ∈ st.queue ∨ w ∈ st.exploded) ∧
  (additionalCount word st.exploded + additionalCount word st.queue = st.cascadeCount) ∧
  additionalCount word st.exploded ≤ maxCascades

/-- A concrete tile constructor used by the concrete instantiations below:
the tile at column `x`, row `y` of a sample 8-wide grid. -/
def sampleTile (x y : Nat) : TileState :=
  { id := y * 8 + x, letter := 'A', gridX := x, gridY := y,
    sporeCount := 0, sporeThreshold := 2 }

/-- Concrete fixture: a full 2×2 id grid. -/
def bugGrid : List (List (Option Nat)) := [[some 0, some 1], [some 2, some 3]]

/-- Concrete fixture: the heap matching `bugGrid` (tile `i` at column `i % 2`,
row `i / 2`). -/
def bugHeap : Nat → TileState := fun i =>
  { id := i, letter := 'A', gridX := i % 2, gridY := i / 2,
    sporeCount := 0, sporeThreshold := 2 }

/-! ### Word validator (word-validator.js) -/

/-- The state of `class WordValidator`: the dictionary set (modelled as a list
of uppercase words) and the `loaded` / `loading` flags. -/
structure WordValidatorState where
  dictionary : List String
  loaded : Bool
  loading : Bool
deriving DecidableEq

/-- The fallback word list of `WordValidator.createFallbackDictionary`. -/
def fallbackWords : List String :=
  ["THE", "AND", "THAT", "HAVE", "FOR", "NOT", "WITH", "YOU", "THIS", "BUT",
   "HIS", "FROM", "THEY", "SAY", "SHE", "WILL", "ONE", "ALL", "WOULD", "THERE",
   "THEIR", "WHAT", "OUT", "ABOUT", "WHO", "GET", "WHICH", "WHEN", "MAKE", "CAN",
   "LIKE", "TIME", "JUST", "HIM", "KNOW", "TAKE", "PEOPLE", "INTO", "YEAR", "YOUR",
   "GOOD", "SOME", "COULD", "THEM", "SEE", "OTHER", "THAN", "THEN", "NOW", "LOOK",
   "ONLY", "COME", "ITS", "OVER", "THINK", "ALSO", "BACK", "AFTER", "USE", "TWO",
   "HOW", "OUR", "WORK", "FIRST", "WELL", "WAY", "EVEN", "NEW", "WANT", "BECAUSE",
   "ANY", "THESE", "GIVE", "DAY", "MOST", "CAT", "DOG", "MAN", "CAR", "TREE",
   "BIRD", "GAME", "FOOD", "LOVE", "AIR", "SUN", "MOON", "WATER", "BOOK", "STAR"]

/-- `WordValidator.createFallbackDictionary()`: clear the dictionary, add the
fallback words and set `loaded` (the `loading` flag is left untouched). -/
def createFallbackDictionary (v : WordValidatorState) : WordValidatorState :=
  { v with dictionary := fallbackWords, loaded := true }

/-- `WordValidator.processDictionary(text)` on an already-split word list:
trimmed non-empty lines are uppercased and stored; `loaded` becomes true and
`loading` false. -/
def processDictionary (v : WordValidatorState) (words : List String) : WordValidatorState :=
  let dict := ((words.map String.trim).filter (fun w => 0 < w.length)).map String.toUpper
  { v with dictionary := dict, loaded := true, loading := false }

/-- `WordValidator.loadDictionary()`: no-op when a load is running or done,
otherwise mark loading (the asynchronous fetch then later fires
`processDictionary` or `createFallbackDictionary`). -/
def loadDictionary (v : WordValidatorState) : WordValidatorState :=
  if v.loading || v.loaded then v else { v with loading := true }

/-- The validator right after its constructor ran (the constructor immediately
calls `loadDictionary`). -/
def initialValidator : WordValidatorState :=
  loadDictionary { dictionary := [], loaded := false, loading := false }

/-- `WordValidator.isValid(word)`: words shorter than 3 letters are invalid;
with the dictionary not loaded, a pending load rejects the word while a failed
load installs the fallback dictionary and continues; otherwise membership of
the uppercased word in the dictionary decides.  Returns the (possibly mutated)
validator state together with the boolean verdict. -/
def isValid (v : WordValidatorState) (word : String) : WordValidatorState × Bool :=
  if word.length < 3 then (v, false)
  else if v.loaded then (v, decide (word.toUpper ∈ v.dictionary))
  else if v.loading then (v, false)
  else
    let v' := createFallbackDictionary v
    (v', decide (word.toUpper ∈ v'.dictionary))

/-- The states the validator can actually be in: the constructor state,
followed by any interleaving of fetch completion (success or failure) and
validation calls. -/
inductive VReachable : WordValidatorState → Prop
  | init : VReachable initialValidator
  | fetchSuccess (v : WordValidatorState) (ws : List String) :
      VReachable v → VReachable (processDictionary v ws)
  | fetchFailure (v : WordValidatorState) :
      VReachable v → VReachable (createFallbackDictionary v)
  | validate (v : WordValidatorState) (w : String) :
      VReachable v → VReachable (isValid v w).1


end Spores

namespace Spores

/-! ## Theorems -/

/-! ### Refill: cell access lemmas -/

/-- Reading an in-bounds cell just written. -/
theorem getCell_setCell_self (g : List (List (Option TileState))) (row col : Nat)
    (v : Option TileState) (hrow : row < g.length)
    (hcol : col < (g.getD row []).length) :
    getCell (setCell g row col v) row col = v := by
  unfold getCell setCell
  have h1 : (g.set row ((g.getD row []).set col v)).getD row [] =
      (g.getD row []).set col v := by
    rw [List.getD_eq_getElem _ _ (by simpa using hrow)]
    simp
  rw [h1, List.getD_eq_getElem _ _ (by simpa using hcol)]
  simp [List.getElem_set_self, hcol]

/-- Writing one cell does not change any other cell. -/
theorem getCell_setCell_ne (g : List (List (Option TileState))) (row col r c : Nat)
    (v : Option TileState) (hne : ¬(r = row ∧ c = col)) :
    getCell (setCell g row col v) r c = getCell g r c := by
  by_cases hr : r = row
  · subst hr
    have hc : c ≠ col := fun h => hne ⟨rfl, h⟩
    unfold getCell setCell
    simp only [List.getD_eq_getElem?_getD, List.getElem?_set_self']
    cases hgr : g[r]? with
    | none => simp
    | some row0 =>
      simp [List.getElem?_set_ne (Ne.symm hc)]
  · unfold getCell setCell
    simp only [List.getD_eq_getElem?_getD]
    rw [List.getElem?_set_ne (Ne.symm hr)]

/-- `setCell` preserves the square shape. -/
theorem squareGrid_setCell {g : List (List (Option TileState))} {n : Nat}
    (h : squareGrid g n) (row col : Nat) (v : Option TileState) :
    squareGrid (setCell g row col v) n := by
  obtain ⟨hlen, hrows⟩ := h
  constructor
  · simpa [setCell] using hlen
  · intro r hr
    rcases List.mem_or_eq_of_mem_set hr with hmem | rfl
    · exact hrows r hmem
    · by_cases hrow : row < g.length
      · have : g.getD row [] = g[row] := List.getD_eq_getElem g [] (by simpa using hrow)
        rw [List.length_set, this]
        exact hrows _ (List.getElem_mem _)
      · have hg : g.length ≤ row := Nat.le_of_not_lt hrow
        have hset : setCell g row col v = g := List.set_eq_of_length_le hg
        rw [hset] at hr
        have hlen2 := hrows _ hr
        have hgd : g.getD row [] = [] := by
          rw [List.getD_eq_getElem?_getD, List.getElem?_eq_none hg]
          rfl
        rw [hgd] at hlen2 ⊢
        simpa using hlen2

/-- Out-of-range reads are `none`. -/
theorem getCell_none_of_le (g : List (List (Option TileState))) (r c : Nat)
    (h : g.length ≤ r) : getCell g r c = none := by
  unfold getCell
  have hgd : g.getD r [] = [] := by
    rw [List.getD_eq_getElem?_getD, List.getElem?_eq_none h]
    rfl
  rw [hgd]
  rfl



/-- `forceFillCell` preserves the square shape. -/
theorem squareGrid_forceFillCell {g : List (List (Option TileState))} {n : Nat}
    (h : squareGrid g n) (src : Nat → Char) (params : GameParams) (k : Nat) (rc : Nat × Nat) :
    squareGrid (forceFillCell src params (g, k) rc).1 n := by
  unfold forceFillCell
  by_cases hc : (getCell g rc.1 rc.2).isNone
  · rw [if_pos hc]
    exact squareGrid_setCell h rc.1 rc.2 _
  · rw [if_neg hc]
    exact h

/-- `forceFillCell` never empties a cell. -/
theorem forceFillCell_mono {g : List (List (Option TileState))} (src : Nat → Char)
    (params : GameParams) (k : Nat) (rc : Nat × Nat) (r c : Nat)
    (h : (getCell g r c).isSome) :
    (getCell (forceFillCell src params (g, k) rc).1 r c).isSome := by
  unfold forceFillCell
  by_cases hcell : (getCell g rc.1 rc.2).isNone
  · rw [if_pos hcell]
    by_cases hrc : r = rc.1 ∧ c = rc.2
    · obtain ⟨rfl, rfl⟩ := hrc
      rw [Option.isNone_iff_eq_none] at hcell
      rw [hcell] at h
      simp at h
    · rw [getCell_setCell_ne _ _ _ _ _ _ hrc]
      exact h
  · rw [if_neg hcell]
    exact h

/-- After `forceFillCell` processes an in-bounds cell, that cell is filled. -/
theorem forceFillCell_fills {g : List (List (Option TileState))} {n : Nat}
    (hsq : squareGrid g n) (src : Nat → Char) (params : GameParams) (k : Nat)
    (rc : Nat × Nat) (h1 : rc.1 < n) (h2 : rc.2 < n) :
    (getCell (forceFillCell src params (g, k) rc).1 rc.1 rc.2).isSome := by
  unfold forceFillCell
  by_cases hcell : (getCell g rc.1 rc.2).isNone
  · rw [if_pos hcell]
    have hrow : rc.1 < g.length := by rw [hsq.1]; exact h1
    have hcol : rc.2 < (g.getD rc.1 []).length := by
      have := hsq.2 (g.getD rc.1 []) (by
        rw [List.getD_eq_getElem g [] (by simpa using hrow)]
        exact List.getElem_mem _)
      rw [this]
      exact h2
    rw [getCell_setCell_self _ _ _ _ hrow hcol]
    rfl
  · rw [if_neg hcell]
    cases hx : getCell g rc.1 rc.2 with
    | none => rw [hx] at hcell; simp at hcell
    | some t => rfl

/-- The force-fill fold preserves the shape, never empties a cell, and fills
every in-bounds cell it visits. -/
theorem forceFold_spec (src : Nat → Char) (params : GameParams) {n : Nat} :
    ∀ (L : List (Nat × Nat)) (g : List (List (Option TileState))) (k : Nat),
      squareGrid g n → (∀ p ∈ L, p.1 < n ∧ p.2 < n) →
      squareGrid (L.foldl (forceFillCell src params) (g, k)).1 n ∧
      (∀ r c, (getCell g r c).isSome →
        (getCell (L.foldl (forceFillCell src params) (g, k)).1 r c).isSome) ∧
      (∀ p ∈ L, (getCell (L.foldl (forceFillCell src params) (g, k)).1 p.1 p.2).isSome) := by
  intro L
  induction L with
  | nil =>
    intro g k hsq _
    exact ⟨hsq, fun r c h => h, fun p hp => absurd hp (List.not_mem_nil p)⟩
  | cons q L ih =>
    intro g k hsq hL
    have hq := hL q (List.mem_cons_self q L)
    have hstep : squareGrid (forceFillCell src params (g, k) q).1 n :=
      squareGrid_forceFillCell hsq src params k q
    have hfold : L.foldl (forceFillCell src params) (forceFillCell src params (g, k) q) =
        L.foldl (forceFillCell src params)
          ((forceFillCell src params (g, k) q).1, (forceFillCell src params (g, k) q).2) := by
      rfl
    have ih2 := ih (forceFillCell src params (g, k) q).1
      (forceFillCell src params (g, k) q).2 hstep
      (fun p hp => hL p (List.mem_cons_of_mem q hp))
    refine ⟨?_, ?_, ?_⟩
    · rw [List.foldl_cons, hfold]
      exact ih2.1
    · intro r c h
      rw [List.foldl_cons, hfold]
      exact ih2.2.1 r c (forceFillCell_mono src params k q r c h)
    · intro p hp
      rcases List.mem_cons.mp hp with rfl | hp'
      · rw [List.foldl_cons, hfold]
        exact ih2.2.1 p.1 p.2 (forceFillCell_fills hsq src params k p hq.1 hq.2)
      · rw [List.foldl_cons, hfold]
        exact ih2.2.2 p hp'

/-- Membership in the row-major traversal. -/
theorem mem_gridIndices (n r c : Nat) : (r, c) ∈ gridIndices n ↔ r < n ∧ c < n := by
  unfold gridIndices
  simp [List.mem_flatMap]

/-- `setColumn` keeps the number of rows. -/
theorem setColumn_length :
    ∀ (g : List (List (Option TileState))) (col : Nat) (cl : List (Option TileState)),
      (setColumn g col cl).length = g.length := by
  intro g
  induction g with
  | nil => intro col cl; cases cl <;> rfl
  | cons r g' ih =>
    intro col cl
    cases cl with
    | nil => rfl
    | cons v cl' => simp [setColumn, ih]

/-- `setColumn` keeps every row's length. -/
theorem setColumn_rows {n : Nat} :
    ∀ (g : List (List (Option TileState))) (col : Nat) (cl : List (Option TileState)),
      (∀ row ∈ g, row.length = n) → ∀ row ∈ setColumn g col cl, row.length = n := by
  intro g
  induction g with
  | nil =>
    intro col cl _ row hrow
    cases cl <;> simp [setColumn] at hrow
  | cons r g' ih =>
    intro col cl hrows row hrow
    cases cl with
    | nil => exact hrows row hrow
    | cons v cl' =>
      rcases List.mem_cons.mp hrow with rfl | hmem
      · rw [List.length_set]
        exact hrows r (List.mem_cons_self r g')
      · exact ih col cl' (fun row0 h0 => hrows row0 (List.mem_cons_of_mem r h0)) row hmem

/-- `setColumn` preserves the square shape. -/
theorem squareGrid_setColumn {n : Nat} (g : List (List (Option TileState))) (col : Nat)
    (cl : List (Option TileState)) (hsq : squareGrid g n) :
    squareGrid (setColumn g col cl) n :=
  ⟨by rw [setColumn_length]; exact hsq.1, setColumn_rows g col cl hsq.2⟩

/-- On a square grid, the null-cell scan returns false exactly when every
in-bounds cell holds a tile. -/
theorem hasNullCells_eq_false_iff {g : List (List (Option TileState))} {n : Nat}
    (hsq : squareGrid g n) :
    hasNullCells g = false ↔ ∀ r c, r < n → c < n → (getCell g r c).isSome := by
  constructor
  · intro hfalse r c hr hc
    have hrow : r < g.length := by rw [hsq.1]; exact hr
    have hrowmem : g.getD r [] ∈ g := by
      rw [List.getD_eq_getElem g [] (by simpa using hrow)]
      exact List.getElem_mem _
    have hlenrow : (g.getD r []).length = n := hsq.2 _ hrowmem
    have hcol : c < (g.getD r []).length := by rw [hlenrow]; exact hc
    have hcellmem : (g.getD r []).getD c none ∈ g.getD r [] := by
      rw [List.getD_eq_getElem _ none (by simpa using hcol)]
      exact List.getElem_mem _
    have hall : ∀ row ∈ g, ∀ cell ∈ row, cell.isNone = false := by
      have h2 := hfalse
      unfold hasNullCells at h2
      rw [List.any_eq_false] at h2
      intro row hrowm cell hcellm
      have h3 := h2 row hrowm
      rw [Bool.not_eq_true, List.any_eq_false] at h3
      have h4 := h3 cell hcellm
      cases cell with
      | none => simp at h4
      | some t => rfl
    have hnn := hall _ hrowmem _ hcellmem
    unfold getCell
    cases hx : (g.getD r []).getD c none with
    | none =>
      rw [hx] at hnn
      simp at hnn
    | some t => rfl
  · intro hfull
    unfold hasNullCells
    rw [List.any_eq_false]
    intro row hrowm
    rw [Bool.not_eq_true, List.any_eq_false]
    intro cell hcellm
    obtain ⟨i, hi, hgi⟩ := List.mem_iff_getElem.mp hrowm
    obtain ⟨j, hj, hcj⟩ := List.mem_iff_getElem.mp hcellm
    have hin : i < n := by rw [← hsq.1]; exact hi
    have hrowlen : row.length = n := hsq.2 row hrowm
    have hjn : j < n := by rw [← hrowlen]; exact hj
    have hcell := hfull i j hin hjn
    have hgc : getCell g i j = cell := by
      unfold getCell
      rw [List.getD_eq_getElem g [] (by simpa using hi), hgi,
          List.getD_eq_getElem row none (by simpa using hj), hcj]
    rw [hgc] at hcell
    cases cell with
    | none => simp at hcell
    | some t => simp

/-- Compaction steps keep the column length. -/
theorem compactStep_length (c : List (Option TileState)) (d : Nat) :
    (compactStep c d).length = c.length := by
  unfold compactStep
  rcases h1 : c.getD d none with _ | t1
  · simp only [h1]
    rcases h2 : findSrcRow c d with _ | s
    · simp only [h2]
    · simp only [h2]
      rcases h3 : c.getD s none with _ | t
      · simp only [h3]
      · simp only [h3]
        simp
  · simp only [h1]

/-- The compaction loop keeps the column length. -/
theorem compactDown_length : ∀ (d : Nat) (c : List (Option TileState)),
    (compactDown c d).length = c.length := by
  intro d
  induction d with
  | zero => intro c; exact compactStep_length c 0
  | succ d ih =>
    intro c
    unfold compactDown
    rw [ih, compactStep_length]

/-- The fill loop keeps the column length. -/
theorem fillTopAux_length (colIdx : Nat) (src : Nat → Char) (params : GameParams) :
    ∀ (remaining row k : Nat) (c : List (Option TileState)),
      ((fillTopAux colIdx src params row remaining k c).1).length = c.length := by
  intro remaining
  induction remaining with
  | zero => intro row k c; rfl
  | succ r ih =>
    intro row k c
    unfold fillTopAux
    by_cases h : (c.getD row none).isSome
    · rw [if_pos h]
      exact ih (row + 1) k c
    · rw [if_neg h]
      rw [ih (row + 1) (k + 1) _]
      simp

/-- `refillColumn`'s column operation keeps the column length. -/
theorem refillColumnList_length (c : List (Option TileState)) (colIdx : Nat)
    (src : Nat → Char) (k : Nat) (params : GameParams) :
    ((refillColumnList c colIdx src k params).1).length = c.length := by
  unfold refillColumnList
  by_cases h : ((List.range c.length).filter (fun r => (c.getD r none).isNone)).isEmpty
  · rw [if_pos h]
  · rw [if_neg h]
    rw [fillTopAux_length, compactDown_length]

/-- `refillColumn` preserves the square shape. -/
theorem squareGrid_refillColumn {n : Nat} (g : List (List (Option TileState)))
    (col : Nat) (src : Nat → Char) (k : Nat) (params : GameParams)
    (hsq : squareGrid g n) : squareGrid (refillColumn g col src k params).1 n :=
  squareGrid_setColumn g col _ hsq

/-- The per-column pass preserves the square shape. -/
theorem columnsFold_shape {n : Nat} (src : Nat → Char) (params : GameParams) :
    ∀ (L : List Nat) (g : List (List (Option TileState))) (k : Nat),
      squareGrid g n →
      squareGrid ((L.foldl (fun acc col => refillColumn acc.1 col src acc.2 params) (g, k)).1) n := by
  intro L
  induction L with
  | nil => intro g k hsq; exact hsq
  | cons col L ih =>
    intro g k hsq
    rw [List.foldl_cons]
    have hstep : squareGrid (refillColumn g col src k params).1 n :=
      squareGrid_refillColumn g col src k params hsq
    have : (refillColumn g col src k params) =
        ((refillColumn g col src k params).1, (refillColumn g col src k params).2) := rfl
    rw [this]
    exact ih _ _ hstep

/-- C1: for every square grid, a completed `refillGrid` (including the delayed
verification and the `resetGrid` backstop) leaves an `n × n` matrix in which
every cell holds exactly one tile: no cell is null. -/
theorem refillGrid_no_holes (g : List (List (Option TileState))) (n : Nat)
    (src : Nat → Char) (params : GameParams) (k : Nat) (hsq : squareGrid g n) :
    squareGrid (refillGrid g src params k).1 n ∧
    ∀ r c, r < n → c < n → (getCell (refillGrid g src params k).1 r c).isSome := by
  unfold refillGrid
  by_cases h0 : hasNullCells g = false
  · rw [if_pos h0]
    exact ⟨hsq, (hasNullCells_eq_false_iff hsq).mp h0⟩
  · rw [if_neg h0]
    have hsq1 : squareGrid (columnsPass g src params k).1 n :=
      columnsFold_shape src params (List.range g.length) g k hsq
    have hlen1 : (columnsPass g src params k).1.length = n := hsq1.1
    have hIdx : ∀ p ∈ gridIndices (columnsPass g src params k).1.length,
        p.1 < n ∧ p.2 < n := by
      intro p hp
      obtain ⟨r, c⟩ := p
      rw [hlen1] at hp
      exact (mem_gridIndices n r c).mp hp
    have hpair : forceFillPass (columnsPass g src params k).1 src params
        (columnsPass g src params k).2 =
        (gridIndices (columnsPass g src params k).1.length).foldl
          (forceFillCell src params)
          ((columnsPass g src params k).1, (columnsPass g src params k).2) := rfl
    have hspec := forceFold_spec src params
      (gridIndices (columnsPass g src params k).1.length)
      (columnsPass g src params k).1 (columnsPass g src params k).2 hsq1 hIdx
    have hsq2 : squareGrid (forceFillPass (columnsPass g src params k).1 src params
        (columnsPass g src params k).2).1 n := by
      rw [hpair]; exact hspec.1
    have hfull : ∀ r c, r < n → c < n →
        (getCell (forceFillPass (columnsPass g src params k).1 src params
          (columnsPass g src params k).2).1 r c).isSome := by
      intro r c hr hc
      rw [hpair]
      apply hspec.2.2 (r, c)
      rw [hlen1]
      exact (mem_gridIndices n r c).mpr ⟨hr, hc⟩
    have hnull2 : hasNullCells (forceFillPass (columnsPass g src params k).1 src params
        (columnsPass g src params k).2).1 = false :=
      (hasNullCells_eq_false_iff hsq2).mpr hfull
    rw [hnull2]
    simp only [Bool.false_eq_true, if_false]
    exact ⟨hsq2, hfull⟩

/-- Witness for `refillGrid_no_holes`: a 1-by-1 grid with one hole is refilled
to a full grid. -/
theorem refillGrid_no_holes_witness :
    squareGrid (refillGrid [[none]] (fun _ => 'E') defaultParams 0).1 1 ∧
    ∀ r c, r < 1 → c < 1 →
      (getCell (refillGrid [[none]] (fun _ => 'E') defaultParams 0).1 r c).isSome :=
  refillGrid_no_holes [[none]] 1 (fun _ => 'E') defaultParams 0 (by
    constructor
    · rfl
    · intro row hrow
      simp at hrow
      rw [hrow]
      rfl)

/-! ### List indexing helpers for the compaction proof -/

/-- `getD` after an in-bounds `set` at the same index. -/
theorem getD_set_self {α : Type} (l : List α) (i : Nat) (v d : α) (h : i < l.length) :
    (l.set i v).getD i d = v := by
  rw [List.getD_eq_getElem _ _ (by simpa using h)]
  exact List.getElem_set_self (by simpa using h)

/-- `getD` after a `set` at a different index. -/
theorem getD_set_ne {α : Type} (l : List α) (i j : Nat) (v d : α) (h : i ≠ j) :
    (l.set i v).getD j d = l.getD j d := by
  rw [List.getD_eq_getElem?_getD, List.getElem?_set_ne h, List.getD_eq_getElem?_getD]

/-- `getD` inside a `take` window. -/
theorem getD_take_lt {α : Type} (l : List α) (i n : Nat) (d : α) (h : i < n) :
    (l.take n).getD i d = l.getD i d := by
  rw [List.getD_eq_getElem?_getD, List.getD_eq_getElem?_getD]
  simp [List.getElem?_take, h]

/-- A `set` above the `take` window is invisible. -/
theorem take_set_of_le {α : Type} (l : List α) (i n : Nat) (v : α) (h : n ≤ i) :
    (l.set i v).take n = l.take n := by
  apply List.ext_getElem?
  intro j
  by_cases hj : j < n
  · simp only [List.getElem?_take, hj, if_pos]
    rw [List.getElem?_set_ne (show i ≠ j by omega)]
  · simp [List.getElem?_take, hj]

/-- A `set` inside the `take` window commutes with `take`. -/
theorem take_set_of_lt {α : Type} (l : List α) (i n : Nat) (v : α) (h : i < n) :
    (l.set i v).take n = (l.take n).set i v := by
  apply List.ext_getElem?
  intro j
  by_cases hij : i = j
  · subst hij
    simp [List.getElem?_take, List.getElem?_set_self', h]
  · simp [List.getElem?_take, List.getElem?_set_ne hij]

/-- A `set` below the `drop` point is invisible. -/
theorem drop_set_of_lt {α : Type} (l : List α) (i n : Nat) (v : α) (h : i < n) :
    (l.set i v).drop n = l.drop n := by
  apply List.ext_getElem?
  intro j
  rw [List.getElem?_drop, List.getElem?_drop]
  rw [List.getElem?_set_ne (show i ≠ n + j by omega)]

/-- `take` of one more element, with the boundary cell read by `getD`. -/
theorem take_succ_getD {α : Type} (l : List α) (n : Nat) (d : α) (h : n < l.length) :
    l.take (n + 1) = l.take n ++ [l.getD n d] := by
  rw [List.take_succ]
  congr
  rw [List.getElem?_eq_getElem h, List.getD_eq_getElem l d h]
  rfl

/-- `drop` peels the boundary cell read by `getD`. -/
theorem drop_eq_getD_cons {α : Type} (l : List α) (n : Nat) (d : α) (h : n < l.length) :
    l.drop n = l.getD n d :: l.drop (n + 1) := by
  rw [List.drop_eq_getElem_cons h, List.getD_eq_getElem l d h]

/-! ### Compaction correctness -/

/-- A record update writing back the tile's own row is the identity. -/
theorem tile_set_gridY_self (t : TileState) (r : Nat) (h : t.gridY = r) :
    ({ t with gridY := r } : TileState) = t := by
  rw [← h]

/-- `findSrcRow` fails exactly when every cell above is empty. -/
theorem findSrcRow_eq_none_iff (c : List (Option TileState)) :
    ∀ d, findSrcRow c d = none ↔ ∀ r, r < d → c.getD r none = none := by
  intro d
  induction d with
  | zero => simp [findSrcRow]
  | succ d ih =>
    unfold findSrcRow
    by_cases h : (c.getD d none).isSome
    · simp only [h, if_pos]
      constructor
      · intro h2; exact absurd h2 (by simp)
      · intro h2
        have := h2 d (Nat.lt_succ_self d)
        rw [this] at h
        simp at h
    · have hb : (c.getD d none).isSome = false := by simpa using h
      rw [hb]
      simp only [Bool.false_eq_true, if_false]
      rw [ih]
      constructor
      · intro h2 r hr
        rcases Nat.lt_succ_iff_lt_or_eq.mp hr with hr' | rfl
        · exact h2 r hr'
        · cases hx : c.getD r none with
          | none => rfl
          | some t => rw [hx] at h; simp at h
      · intro h2 r hr
        exact h2 r (Nat.lt_succ_of_lt hr)

/-- `findSrcRow` returns the nearest (largest) occupied row strictly below
`destRow`. -/
theorem findSrcRow_eq_some (c : List (Option TileState)) :
    ∀ d s, findSrcRow c d = some s →
      (c.getD s none).isSome ∧ s < d ∧ ∀ r, s < r → r < d → c.getD r none = none := by
  intro d
  induction d with
  | zero => intro s h; simp [findSrcRow] at h
  | succ d ih =>
    intro s h
    unfold findSrcRow at h
    by_cases hs : (c.getD d none).isSome
    · rw [if_pos hs] at h
      have : s = d := by simpa using h.symm
      subst this
      exact ⟨hs, Nat.lt_succ_self s, fun r hr hr2 => by omega⟩
    · rw [if_neg hs] at h
      obtain ⟨h1, h2, h3⟩ := ih s h
      refine ⟨h1, Nat.lt_succ_of_lt h2, fun r hr hr2 => ?_⟩
      rcases Nat.lt_succ_iff_lt_or_eq.mp hr2 with hr' | rfl
      · exact h3 r hr hr'
      · cases hx : c.getD r none with
        | none => rfl
        | some t => rw [hx] at hs; simp at hs

/-- One compaction step preserves row-coordinate consistency. -/
theorem colRowsConsistent_compactStep (c : List (Option TileState)) (dr : Nat)
    (h : colRowsConsistent c) : colRowsConsistent (compactStep c dr) := by
  unfold compactStep
  rcases h1 : c.getD dr none with _ | t1
  · simp only [h1]
    rcases h2 : findSrcRow c dr with _ | s
    · simp only [h2]; exact h
    · simp only [h2]
      rcases h3 : c.getD s none with _ | t
      · simp only [h3]; exact h
      · simp only [h3]
        obtain ⟨hs1, hs2, _⟩ := findSrcRow_eq_some c dr s h2
        intro i u hi
        by_cases his : i = s
        · subst his
          by_cases hil : i < c.length
          · rw [getD_set_self _ _ _ _ (by simpa using hil)] at hi
            exact absurd hi (by simp)
          · have hlen : ((c.set dr (some { t with gridY := dr })).set i none).length ≤ i := by
              simp
              omega
            rw [List.getD_eq_getElem?_getD, List.getElem?_eq_none hlen] at hi
            exact absurd hi (by simp)
        · rw [getD_set_ne _ _ _ _ _ (fun hh => his hh.symm)] at hi
          by_cases hidr : i = dr
          · subst hidr
            by_cases hdl : i < c.length
            · rw [getD_set_self _ _ _ _ hdl] at hi
              injection hi with hi
              rw [← hi]
            · rw [List.set_eq_of_length_le (by omega)] at hi
              rw [h1] at hi
              exact absurd hi (by simp)
          · rw [getD_set_ne _ _ _ _ _ (fun hh => hidr hh.symm)] at hi
            exact h i u hi
  · simp only [h1]; exact h

/-- Reindexing distributes over append. -/
theorem reindexFrom_append (b : Nat) (xs ys : List TileState) :
    reindexFrom b (xs ++ ys) = reindexFrom b xs ++ reindexFrom (b + xs.length) ys := by
  induction xs generalizing b with
  | nil => simp [reindexFrom]
  | cons t ts ih =>
    simp only [List.cons_append, reindexFrom, List.length_cons]
    rw [show b + (ts.length + 1) = b + 1 + ts.length by omega]
    rw [← ih (b + 1)]
    rfl

/-- Reindexing keeps the list length. -/
theorem reindexFrom_length (b : Nat) (xs : List TileState) :
    (reindexFrom b xs).length = xs.length := by
  induction xs generalizing b with
  | nil => rfl
  | cons t ts ih => simp [reindexFrom, ih]

/-- Appending an occupied cell whose tile already sits at the bottom row
extends the gravity normal form on the right. -/
theorem gravN_append_some (p : List (Option TileState)) (t : TileState)
    (ht : t.gridY = p.length) : gravN (p ++ [some t]) = gravN p ++ [some t] := by
  unfold gravN
  have hfm : (p ++ [some t]).filterMap id = p.filterMap id ++ [t] := by
    rw [List.filterMap_append]
    rfl
  have hk : (p.filterMap id).length ≤ p.length := List.length_filterMap_le id p
  rw [hfm]
  have hlen1 : (p ++ [some t]).length = p.length + 1 := by simp
  have hlen2 : (p.filterMap id ++ [t]).length = (p.filterMap id).length + 1 := by simp
  rw [hlen1, hlen2]
  have harith : p.length + 1 - ((p.filterMap id).length + 1) =
      p.length - (p.filterMap id).length := by omega
  rw [harith, reindexFrom_append]
  rw [show p.length - (p.filterMap id).length + (p.filterMap id).length = p.length from by omega]
  simp only [reindexFrom]
  rw [tile_set_gridY_self t p.length ht]
  simp [List.append_assoc]

/-- Appending an empty cell to an all-empty window extends the gravity normal
form on the right. -/
theorem gravN_append_none_of_nil (p : List (Option TileState))
    (hs : p.filterMap id = []) : gravN (p ++ [none]) = gravN p ++ [none] := by
  unfold gravN
  have hfm : (p ++ [none]).filterMap id = p.filterMap id := by
    rw [List.filterMap_append]
    simp
  rw [hfm, hs]
  simp [List.replicate_succ', reindexFrom]

/-- Splitting the survivors of a window at its last occupied cell. -/
theorem filterMap_split_last (p : List (Option TileState)) (s : Nat) (t : TileState)
    (hs : s < p.length) (ht : p.getD s none = some t)
    (hmid : ∀ r, s < r → r < p.length → p.getD r none = none) :
    p.filterMap id = (p.take s).filterMap id ++ [t] ∧
    (p.set s none).filterMap id = (p.take s).filterMap id := by
  have hdropnone : ∀ x ∈ p.drop (s + 1), x = none := by
    intro x hx
    obtain ⟨i, hi, hxi⟩ := List.mem_iff_getElem.mp hx
    have hlen : (p.drop (s + 1)).length = p.length - (s + 1) := by simp
    have hib : s + 1 + i < p.length := by omega
    have hq : (p.drop (s + 1))[i]? = p[s + 1 + i]? := List.getElem?_drop ..
    have hsome : p[s + 1 + i]? = some x := by
      rw [← hq, List.getElem?_eq_getElem hi, hxi]
    have hgd : p.getD (s + 1 + i) none = x := by
      rw [List.getD_eq_getElem?_getD, hsome]
      rfl
    rw [← hgd]
    exact hmid (s + 1 + i) (by omega) hib
  have hfmdrop : (p.drop (s + 1)).filterMap id = [] :=
    List.filterMap_eq_nil_iff.mpr (fun a ha => hdropnone a ha)
  have hdecomp : p = p.take s ++ p.getD s none :: p.drop (s + 1) := by
    conv_lhs => rw [← List.take_append_drop s p]
    rw [drop_eq_getD_cons p s none hs]
  constructor
  · conv_lhs => rw [hdecomp]
    rw [List.filterMap_append, ht]
    have : (some t :: p.drop (s + 1)).filterMap id = t :: (p.drop (s + 1)).filterMap id := rfl
    rw [this, hfmdrop]
  · rw [List.set_eq_take_append_cons_drop, if_pos hs]
    rw [List.filterMap_append]
    have : (none :: p.drop (s + 1)).filterMap id = (p.drop (s + 1)).filterMap id := rfl
    rw [this, hfmdrop]
    simp

/-- Pulling the last occupied cell of a window down to a fresh bottom cell, in
gravity normal form. -/
theorem gravN_pull_up (p : List (Option TileState)) (s : Nat) (t : TileState)
    (hs : s < p.length) (ht : p.getD s none = some t)
    (hmid : ∀ r, s < r → r < p.length → p.getD r none = none) :
    gravN (p ++ [none]) =
      gravN (p.set s none) ++ [some ({ t with gridY := p.length } : TileState)] := by
  obtain ⟨ha, hb⟩ := filterMap_split_last p s t hs ht hmid
  have hk0 : ((p.take s).filterMap id).length ≤ p.length := by
    calc ((p.take s).filterMap id).length ≤ (p.take s).length :=
          List.length_filterMap_le id (p.take s)
    _ ≤ p.length := by simp
  unfold gravN
  have hfm1 : (p ++ [none]).filterMap id = (p.take s).filterMap id ++ [t] := by
    rw [List.filterMap_append, ha]
    simp
  have hlen1 : (p ++ [none]).length = p.length + 1 := by simp
  have hlen2 : ((p.take s).filterMap id ++ [t]).length =
      ((p.take s).filterMap id).length + 1 := by simp
  rw [hfm1, hb, hlen1, hlen2, List.length_set]
  have harith : p.length + 1 - (((p.take s).filterMap id).length + 1) =
      p.length - ((p.take s).filterMap id).length := by omega
  rw [harith, reindexFrom_append]
  rw [show p.length - ((p.take s).filterMap id).length + ((p.take s).filterMap id).length
      = p.length from by omega]
  simp only [reindexFrom]
  simp [List.append_assoc]

/-- The compaction loop computes the gravity normal form of the processed
window: all remaining tiles at the bottom in their original order, with their
row coordinates updated, and emptiness on top. -/
theorem compactDown_gravity : ∀ (d : Nat) (c : List (Option TileState)),
    d < c.length → colRowsConsistent c →
    compactDown c d = gravN (c.take (d + 1)) ++ c.drop (d + 1) := by
  intro d
  induction d with
  | zero =>
    intro c hd hrc
    cases c with
    | nil => simp at hd
    | cons x c' =>
      unfold compactDown compactStep
      cases x with
      | some t =>
        have hx : (some t :: c').getD 0 none = some t := rfl
        simp only [hx]
        have ht : t.gridY = 0 := hrc 0 t hx
        unfold gravN
        have : (some t :: c').take 1 = [some t] := rfl
        rw [this]
        have hfm : ([some t] : List (Option TileState)).filterMap id = [t] := rfl
        rw [hfm]
        simp only [List.length_cons, List.length_nil, List.length_singleton]
        simp only [Nat.sub_self, List.replicate_zero, List.nil_append, reindexFrom]
        rw [tile_set_gridY_self t 0 ht]
        rfl
      | none =>
        have hx : ((none : Option TileState) :: c').getD 0 none = none := rfl
        simp only [hx]
        have hf : findSrcRow (none :: c') 0 = none := rfl
        simp only [hf]
        unfold gravN
        have : ((none : Option TileState) :: c').take 1 = [none] := rfl
        rw [this]
        rfl
  | succ d ih =>
    intro c hd hrc
    unfold compactDown
    have hlen1 : (compactStep c (d + 1)).length = c.length := compactStep_length c (d + 1)
    have hrc1 : colRowsConsistent (compactStep c (d + 1)) :=
      colRowsConsistent_compactStep c (d + 1) hrc
    have hd1 : d < (compactStep c (d + 1)).length := by omega
    rw [ih (compactStep c (d + 1)) hd1 hrc1]
    rcases hA : c.getD (d + 1) none with _ | t
    · rcases hF : findSrcRow c (d + 1) with _ | s
      · -- empty destination, nothing above: the step is a no-op and the
        -- whole window so far is empty
        have hc1 : compactStep c (d + 1) = c := by
          unfold compactStep
          simp only [hA, hF]
        rw [hc1]
        have hmid := (findSrcRow_eq_none_iff c (d + 1)).mp hF
        have htk : c.take (d + 2) = c.take (d + 1) ++ [none] := by
          rw [take_succ_getD c (d + 1) none hd, hA]
        have hdr : c.drop (d + 1) = none :: c.drop (d + 2) := by
          rw [drop_eq_getD_cons c (d + 1) none hd, hA]
        have hfm : (c.take (d + 1)).filterMap id = [] := by
          apply List.filterMap_eq_nil_iff.mpr
          intro a ha
          obtain ⟨i, hi, hxi⟩ := List.mem_iff_getElem.mp ha
          have hilen : (c.take (d + 1)).length ≤ d + 1 := by simp
          have hid : i < d + 1 := by omega
          have hgd : (c.take (d + 1)).getD i none = a := by
            rw [List.getD_eq_getElem _ _ hi, hxi]
          rw [getD_take_lt c i (d + 1) none hid] at hgd
          rw [← hgd, hmid i hid]
          rfl
        rw [htk, gravN_append_none_of_nil _ hfm, hdr, List.append_cons]
      · -- empty destination with an occupied cell above: the tile moves down
        obtain ⟨hs1, hs2, hs3⟩ := findSrcRow_eq_some c (d + 1) s hF
        obtain ⟨t, hts⟩ := Option.isSome_iff_exists.mp hs1
        have hslen : s < c.length := by
          by_contra hcon
          rw [List.getD_eq_getElem?_getD, List.getElem?_eq_none (by omega)] at hts
          simp at hts
        have hc1 : compactStep c (d + 1) =
            (c.set (d + 1) (some { t with gridY := d + 1 })).set s none := by
          unfold compactStep
          simp only [hA, hF, hts]
        rw [hc1]
        have htake : ((c.set (d + 1) (some { t with gridY := d + 1 })).set s none).take (d + 1) =
            (c.take (d + 1)).set s none := by
          rw [take_set_of_lt _ s (d + 1) none hs2, take_set_of_le _ (d + 1) (d + 1) _ le_rfl]
        have hdrop : ((c.set (d + 1) (some { t with gridY := d + 1 })).set s none).drop (d + 1) =
            some { t with gridY := d + 1 } :: c.drop (d + 2) := by
          rw [drop_set_of_lt _ s (d + 1) none hs2]
          have hlen : d + 1 < (c.set (d + 1) (some { t with gridY := d + 1 })).length := by
            simp
            omega
          rw [drop_eq_getD_cons _ (d + 1) none hlen,
            getD_set_self c (d + 1) _ none hd,
            drop_set_of_lt c (d + 1) (d + 2) _ (Nat.lt_succ_self (d + 1))]
        rw [htake, hdrop]
        -- window facts for the pull-up lemma, on p := c.take (d + 1)
        have hplen : (c.take (d + 1)).length = d + 1 := by
          simp
          omega
        have hpt : (c.take (d + 1)).getD s none = some t := by
          rw [getD_take_lt c s (d + 1) none hs2]
          exact hts
        have hpm : ∀ r, s < r → r < (c.take (d + 1)).length →
            (c.take (d + 1)).getD r none = none := by
          intro r hr1 hr2
          rw [hplen] at hr2
          rw [getD_take_lt c r (d + 1) none hr2]
          exact hs3 r hr1 hr2
        have hps : s < (c.take (d + 1)).length := by omega
        have hpull := gravN_pull_up (c.take (d + 1)) s t hps hpt hpm
        rw [hplen] at hpull
        have htk2 : c.take (d + 2) = c.take (d + 1) ++ [none] := by
          rw [take_succ_getD c (d + 1) none hd, hA]
        rw [htk2, hpull, List.append_cons]
    · -- occupied destination: the step is a no-op and the window grows by an
      -- already-placed tile
      have hc1 : compactStep c (d + 1) = c := by
        unfold compactStep
        simp only [hA]
      rw [hc1]
      have htY : t.gridY = d + 1 := hrc (d + 1) t hA
      have htk : c.take (d + 2) = c.take (d + 1) ++ [some t] := by
        rw [take_succ_getD c (d + 1) none hd, hA]
      have hdr : c.drop (d + 1) = some t :: c.drop (d + 2) := by
        rw [drop_eq_getD_cons c (d + 1) none hd, hA]
      have hplen : (c.take (d + 1)).length = d + 1 := by
        simp
        omega
      rw [htk, gravN_append_some _ t (by rw [hplen]; exact htY), hdr, List.append_cons]

/-- Counting the leading holes of a gravity normal form. -/
theorem leadingEmpty_replicate_map : ∀ (m : Nat) (xs : List TileState),
    leadingEmpty (List.replicate m none ++ xs.map some) = m := by
  intro m
  induction m with
  | zero =>
    intro xs
    cases xs with
    | nil => rfl
    | cons t ts => rfl
  | succ m ih =>
    intro xs
    rw [List.replicate_succ, List.cons_append]
    unfold leadingEmpty
    rw [ih xs]

/-- The fill loop on a window of `m` leading holes: each hole receives a fresh
tile carrying its final coordinates, consuming `m` letters in order. -/
theorem fillTopAux_fill (colIdx : Nat) (src : Nat → Char) (params : GameParams) :
    ∀ (m : Nat) (A D : List (Option TileState)) (k : Nat),
      fillTopAux colIdx src params A.length m k (A ++ List.replicate m none ++ D) =
        (A ++ (List.range m).map
            (fun i => some (mkNewTile src params (k + i) (A.length + i) colIdx)) ++ D,
         k + m) := by
  intro m
  induction m with
  | zero =>
    intro A D k
    simp [fillTopAux]
  | succ m ih =>
    intro A D k
    rw [List.replicate_succ]
    unfold fillTopAux
    have hget : (A ++ (none : Option TileState) :: (List.replicate m none ++ D)).getD
        A.length none = none := by
      rw [List.getD_eq_getElem?_getD, List.getElem?_append_right le_rfl]
      simp
    rw [List.append_assoc, List.cons_append]
    simp only [hget, Option.isSome_none, Bool.false_eq_true, if_false]
    have hset : (A ++ (none : Option TileState) :: (List.replicate m none ++ D)).set A.length
        (some (mkNewTile src params k A.length colIdx)) =
        (A ++ [some (mkNewTile src params k A.length colIdx)]) ++ List.replicate m none ++ D := by
      rw [List.set_append]
      rw [if_neg (by omega)]
      simp
    rw [hset]
    have hlenA : (A ++ [some (mkNewTile src params k A.length colIdx)]).length = A.length + 1 := by
      simp
    have := ih (A ++ [some (mkNewTile src params k A.length colIdx)]) D (k + 1)
    rw [hlenA] at this
    rw [this]
    have hmap : (List.range (m + 1)).map
        (fun i => some (mkNewTile src params (k + i) (A.length + i) colIdx)) =
        some (mkNewTile src params k A.length colIdx) ::
          (List.range m).map
            (fun i => some (mkNewTile src params (k + 1 + i) (A.length + 1 + i) colIdx)) := by
      rw [List.range_succ_eq_map, List.map_cons, List.map_map]
      congr 1
      apply List.map_congr_left
      intro i _
      simp only [Function.comp]
      rw [show k + (i + 1) = k + 1 + i by omega,
        show A.length + (i + 1) = A.length + 1 + i by omega]
    rw [hmap]
    have harr : k + 1 + m = k + (m + 1) := by omega
    rw [harr]
    congr 1
    simp

/-- A full, row-consistent window is its own gravity normal form. -/
theorem full_column_normal : ∀ (c : List (Option TileState)) (base : Nat),
    (∀ i t, c.getD i none = some t → t.gridY = base + i) →
    (∀ x ∈ c, x.isSome) →
    c = (reindexFrom base (c.filterMap id)).map some := by
  intro c
  induction c with
  | nil => intro base _ _; rfl
  | cons x c' ih =>
    intro base hrc hfull
    cases x with
    | none =>
      have := hfull none (List.mem_cons_self none c')
      simp at this
    | some t =>
      have ht : t.gridY = base := by
        have := hrc 0 t rfl
        omega
      have hrc' : ∀ i u, c'.getD i none = some u → u.gridY = (base + 1) + i := by
        intro i u hu
        have : (some t :: c').getD (i + 1) none = some u := hu
        have h2 := hrc (i + 1) u this
        omega
      have hfull' : ∀ x ∈ c', x.isSome := fun x hx =>
        hfull x (List.mem_cons_of_mem (some t) hx)
      have hfm : (some t :: c').filterMap id = t :: c'.filterMap id := rfl
      rw [hfm]
      simp only [reindexFrom, List.map_cons]
      rw [tile_set_gridY_self t base ht]
      rw [← ih (base + 1) hrc' hfull']

/-- A full column has as many survivors as cells. -/
theorem filterMap_length_of_full : ∀ (c : List (Option TileState)),
    (∀ x ∈ c, x.isSome) → (c.filterMap id).length = c.length := by
  intro c
  induction c with
  | nil => intro _; rfl
  | cons x c' ih =>
    intro hfull
    cases x with
    | none =>
      have := hfull none (List.mem_cons_self none c')
      simp at this
    | some t =>
      have : (some t :: c').filterMap id = t :: c'.filterMap id := rfl
      rw [this]
      simp only [List.length_cons]
      rw [ih (fun x hx => hfull x (List.mem_cons_of_mem (some t) hx))]

/-- C8: for every row-consistent column, `refillColumn` moves all surviving
tiles downward preserving their relative order (the survivors, reindexed to
the bottom `|survivors|` rows in order, make up the bottom of the column),
updates each moved tile's row coordinate to its destination row, and fills
exactly the remaining `length - |survivors|` empty cells at the top with newly
generated tiles whose final grid coordinates are assigned immediately,
consuming exactly that many letters. -/
theorem refillColumn_spec (c : List (Option TileState)) (colIdx : Nat) (src : Nat → Char)
    (k : Nat) (params : GameParams) (hrc : colRowsConsistent c) :
    ((refillColumnList c colIdx src k params).1.length = c.length) ∧
    ((refillColumnList c colIdx src k params).1.drop
        (c.length - (c.filterMap id).length) =
      (reindexFrom (c.length - (c.filterMap id).length) (c.filterMap id)).map some) ∧
    (∀ r, r < c.length - (c.filterMap id).length →
      (refillColumnList c colIdx src k params).1.getD r none =
        some (mkNewTile src params (k + r) r colIdx)) ∧
    ((refillColumnList c colIdx src k params).2 =
      k + (c.length - (c.filterMap id).length)) := by
  have hkle : (c.filterMap id).length ≤ c.length := List.length_filterMap_le id c
  unfold refillColumnList
  by_cases hE : ((List.range c.length).filter (fun r => (c.getD r none).isNone)).isEmpty = true
  · rw [if_pos hE]
    have hfull : ∀ x ∈ c, x.isSome := by
      intro x hx
      obtain ⟨i, hi, hxi⟩ := List.mem_iff_getElem.mp hx
      have hnil := List.isEmpty_iff.mp hE
      have hnot := List.filter_eq_nil_iff.mp hnil i (List.mem_range.mpr hi)
      have hgd : c.getD i none = x := by
        rw [List.getD_eq_getElem c none hi, hxi]
      rw [hgd] at hnot
      cases x with
      | none => simp at hnot
      | some t => rfl
    have hm0 : (c.filterMap id).length = c.length := filterMap_length_of_full c hfull
    have hm : c.length - (c.filterMap id).length = 0 := by omega
    rw [hm]
    refine ⟨rfl, ?_, ?_, by omega⟩
    · rw [List.drop_zero]
      exact full_column_normal c 0 (fun i t ht => by
        have := hrc i t ht
        omega) hfull
    · intro r hr
      omega
  · rw [if_neg hE]
    have hlen0 : 0 < c.length := by
      by_contra hcon
      have : c.length = 0 := by omega
      rw [this] at hE
      simp [List.range_zero] at hE
    have hd : c.length - 1 < c.length := by omega
    have hgrav : compactDown c (c.length - 1) = gravN c := by
      rw [compactDown_gravity (c.length - 1) c hd hrc]
      rw [show c.length - 1 + 1 = c.length from by omega]
      rw [List.take_length, List.drop_length]
      simp
    have hgshape : gravN c = List.replicate (c.length - (c.filterMap id).length) none ++
        (reindexFrom (c.length - (c.filterMap id).length) (c.filterMap id)).map some := rfl
    have hle : leadingEmpty (compactDown c (c.length - 1)) =
        c.length - (c.filterMap id).length := by
      rw [hgrav, hgshape]
      exact leadingEmpty_replicate_map _ _
    rw [hle, hgrav, hgshape]
    have hfill := fillTopAux_fill colIdx src params
      (c.length - (c.filterMap id).length) []
      ((reindexFrom (c.length - (c.filterMap id).length) (c.filterMap id)).map some) k
    simp only [List.nil_append, List.length_nil, Nat.zero_add] at hfill
    rw [hfill]
    have hlenNew : ((List.range (c.length - (c.filterMap id).length)).map
        (fun i => some (mkNewTile src params (k + i) i colIdx))).length =
        c.length - (c.filterMap id).length := by simp
    refine ⟨?_, ?_, ?_, rfl⟩
    · simp [reindexFrom_length]
      omega
    · have hdl : ∀ (L D2 : List (Option TileState)),
          L.length = c.length - (List.filterMap id c).length →
          List.drop (c.length - (List.filterMap id c).length) (L ++ D2) = D2 := by
        intro L D2 hL
        rw [← hL, List.drop_left]
      exact hdl _ _ hlenNew
    · intro r hr
      rw [List.getD_eq_getElem?_getD, List.getElem?_append]
      rw [if_pos (by rw [hlenNew]; exact hr)]
      rw [List.getElem?_map, List.getElem?_range hr]
      rfl

/-- Witness for `refillColumn_spec`: a 3-cell column with one survivor at
row 1 and holes at rows 0 and 2. -/
theorem refillColumn_spec_witness :
    ((refillColumnList [none, some (sampleTile 0 1), none] 0 (fun _ => 'A') 0
        defaultParams).1.length =
      ([none, some (sampleTile 0 1), none] : List (Option TileState)).length) ∧
    ((refillColumnList [none, some (sampleTile 0 1), none] 0 (fun _ => 'A') 0
        defaultParams).1.drop
        (([none, some (sampleTile 0 1), none] : List (Option TileState)).length -
          (([none, some (sampleTile 0 1), none] : List (Option TileState)).filterMap id).length) =
      (reindexFrom
        (([none, some (sampleTile 0 1), none] : List (Option TileState)).length -
          (([none, some (sampleTile 0 1), none] : List (Option TileState)).filterMap id).length)
        (([none, some (sampleTile 0 1), none] : List (Option TileState)).filterMap id)).map some) ∧
    (∀ r, r < ([none, some (sampleTile 0 1), none] : List (Option TileState)).length -
        (([none, some (sampleTile 0 1), none] : List (Option TileState)).filterMap id).length →
      (refillColumnList [none, some (sampleTile 0 1), none] 0 (fun _ => 'A') 0
          defaultParams).1.getD r none =
        some (mkNewTile (fun _ => 'A') defaultParams (0 + r) r 0)) ∧
    ((refillColumnList [none, some (sampleTile 0 1), none] 0 (fun _ => 'A') 0
        defaultParams).2 =
      0 + (([none, some (sampleTile 0 1), none] : List (Option TileState)).length -
        (([none, some (sampleTile 0 1), none] : List (Option TileState)).filterMap id).length)) :=
  refillColumn_spec [none, some (sampleTile 0 1), none] 0 (fun _ => 'A') 0 defaultParams
    (by
      intro i t h
      rcases i with _ | _ | _ | j
      · simp at h
      · simp at h
        rw [← h]
        rfl
      · simp at h
      · simp at h)

/-! ### Cascade chain lemmas -/

/-- One spore landing never touches the grid, the exploded set or the cascade
counter. -/
theorem applySpore_frame (tid : Nat) (st : CascadeState) :
    (applySpore tid st).1.exploded = st.exploded ∧
    (applySpore tid st).1.grid = st.grid ∧
    (applySpore tid st).1.cascadeCount = st.cascadeCount := by
  unfold applySpore
  split_ifs <;> exact ⟨rfl, rfl, rfl⟩

/-- The draw loop never touches the grid, the exploded set or the cascade
counter. -/
theorem drawLoop_frame (cands : List Nat) (oracle : Nat → Nat) :
    ∀ (count : Nat) (st : CascadeState),
      (drawLoop cands oracle count st).1.exploded = st.exploded ∧
      (drawLoop cands oracle count st).1.grid = st.grid ∧
      (drawLoop cands oracle count st).1.cascadeCount = st.cascadeCount := by
  intro count
  induction count with
  | zero => intro st; exact ⟨rfl, rfl, rfl⟩
  | succ n ih =>
    intro st
    unfold drawLoop
    obtain ⟨h1, h2, h3⟩ := applySpore_frame (cands.getD (oracle st.rng % cands.length) 0) st
    obtain ⟨g1, g2, g3⟩ := ih (applySpore (cands.getD (oracle st.rng % cands.length) 0) st).1
    exact ⟨by rw [g1, h1], by rw [g2, h2], by rw [g3, h3]⟩

/-- Spore spreading never touches the exploded set. -/
theorem spread_frame (params : GameParams) (st : CascadeState)
    (ox oy cnt : Nat) (oracle : Nat → Nat) :
    (spreadSporesWithAdjacency params st ox oy cnt oracle).1.exploded = st.exploded := by
  unfold spreadSporesWithAdjacency
  by_cases h : (candidates params st ox oy).isEmpty
  · rw [if_pos h]
  · rw [if_neg h]
    exact (drawLoop_frame _ _ cnt st).1

/-- An explosion only ever appends the dequeued tile to the exploded set. -/
theorem chainExplode_exploded (wordLen : Nat) (params : GameParams)
    (oracle : Nat → Nat) (st : CascadeState) (t : Nat) :
    (chainExplode wordLen params oracle st t).exploded = st.exploded := by
  unfold chainExplode explodeCore
  by_cases h : cellId st.grid (st.heap t).gridY (st.heap t).gridX = some t
  · rw [if_pos h]
    exact spread_frame ..
  · rw [if_neg h]
    cases locateTile st.grid t with
    | none => rfl
    | some rc => exact spread_frame ..

/-- C5: each tile is processed at most once per chain.  A dequeued tile that
is already a member of the exploded set is skipped outright — the step only
pops the queue, leaving the grid, the heap, the exploded set and the cascade
counter untouched (no second removal, no second spore emission).  And across
any step the exploded set stays duplicate-free, growing by at most the one
dequeued tile not yet in it, so its size counts distinct exploded tiles. -/
theorem explode_once_per_tile :
    (∀ wordLen params oracle (st : CascadeState) t rest,
      st.queue = t :: rest → ¬(st.queue = [] ∨ maxCascades ≤ st.cascadeCount) →
      t ∈ st.exploded →
      chainStep wordLen params oracle st = some { st with queue := rest }) ∧
    (∀ wordLen params oracle (st st' : CascadeState), st.exploded.Nodup →
      chainStep wordLen params oracle st = some st' →
      st'.exploded.Nodup ∧
      (st'.exploded = st.exploded ∨
        ∃ t, t ∉ st.exploded ∧ st'.exploded = st.exploded ++ [t])) := by
  constructor
  · intro wordLen params oracle st t rest hq hstop hmem
    unfold chainStep
    rw [if_neg hstop]
    simp only [hq]
    rw [if_pos hmem]
  · intro wordLen params oracle st st' hnd hstep
    unfold chainStep at hstep
    by_cases hstop : st.queue = [] ∨ maxCascades ≤ st.cascadeCount
    · rw [if_pos hstop] at hstep
      exact absurd hstep (by simp)
    · rw [if_neg hstop] at hstep
      cases hq : st.queue with
      | nil => exact absurd (Or.inl hq) hstop
      | cons t rest =>
        simp only [hq] at hstep
        by_cases hmem : t ∈ st.exploded
        · rw [if_pos hmem] at hstep
          injection hstep with hstep
          rw [← hstep]
          exact ⟨hnd, Or.inl rfl⟩
        · rw [if_neg hmem] at hstep
          injection hstep with hstep
          rw [← hstep, chainExplode_exploded]
          constructor
          · simp [List.nodup_append, hnd, hmem]
          · exact Or.inr ⟨t, hmem, rfl⟩

/-- Witness for `explode_once_per_tile`: a dequeued tile already in the
exploded set is popped without any other state change. -/
theorem explode_once_per_tile_witness :
    chainStep 3 defaultParams (fun _ => 0)
      (CascadeState.mk [[some 0]] (fun _ => sampleTile 0 0) [0, 1] [0] 0 0) =
    some (CascadeState.mk [[some 0]] (fun _ => sampleTile 0 0) [1] [0] 0 0) :=
  explode_once_per_tile.1 3 defaultParams (fun _ => 0)
    (CascadeState.mk [[some 0]] (fun _ => sampleTile 0 0) [0, 1] [0] 0 0)
    0 [1] rfl (by decide) (by decide)

/-- Eligible candidates are neither pending nor already exploded. -/
theorem candidates_excl (params : GameParams) (st : CascadeState) (ox oy : Nat) :
    ∀ x ∈ candidates params st ox oy, x ∉ st.queue ∧ x ∉ st.exploded := by
  intro x hx
  unfold candidates at hx
  rw [List.mem_filterMap] at hx
  obtain ⟨a, _, hfa⟩ := hx
  by_cases h0 : a.2 = (0 : Int) ∧ a.1 = (0 : Int)
  · rw [if_pos h0] at hfa
    exact absurd hfa (by simp)
  · rw [if_neg h0] at hfa
    by_cases hb : 0 ≤ (ox : Int) + a.2 ∧ (ox : Int) + a.2 < (st.grid.length : Int) ∧
        0 ≤ (oy : Int) + a.1 ∧ (oy : Int) + a.1 < (st.grid.length : Int)
    · rw [if_pos hb] at hfa
      cases hcell : cellId st.grid ((oy : Int) + a.1).toNat ((ox : Int) + a.2).toNat with
      | none =>
        simp only [hcell] at hfa
        exact absurd hfa (by simp)
      | some tid =>
        simp only [hcell] at hfa
        by_cases hq : tid ∈ st.queue ∨ tid ∈ st.exploded
        · rw [if_pos hq] at hfa
          exact absurd hfa (by simp)
        · rw [if_neg hq] at hfa
          have : tid = x := by simpa using hfa
          subst this
          push_neg at hq
          exact hq
    · rw [if_neg hb] at hfa
      exact absurd hfa (by simp)

/-- How one spore landing changes the queue and the cascade report. -/
theorem applySpore_spec (tid : Nat) (st : CascadeState) :
    ((applySpore tid st).1.queue = st.queue ∧ (applySpore tid st).2 = 0) ∨
    (tid ∉ st.queue ∧ (applySpore tid st).1.queue = st.queue ++ [tid] ∧
      (applySpore tid st).2 = (if tid ∉ st.exploded then 1 else 0)) := by
  unfold applySpore
  by_cases h : ((st.heap tid).addSpores 1).2 = true ∧ tid ∉ st.queue
  · rw [if_pos h]
    exact Or.inr ⟨h.2, rfl, rfl⟩
  · rw [if_neg h]
    exact Or.inl ⟨rfl, rfl⟩

/-- Each draw picks a member of a non-empty candidate list. -/
theorem pick_mem (cands : List Nat) (h : cands ≠ []) (idx : Nat) :
    cands.getD (idx % cands.length) 0 ∈ cands := by
  have hl : 0 < cands.length := List.length_pos.mpr h
  have hm : idx % cands.length < cands.length := Nat.mod_lt _ hl
  rw [List.getD_eq_getElem _ _ hm]
  exact List.getElem_mem _

/-- The draw loop only appends fresh candidate tiles to the queue, keeps it
duplicate-free, and reports exactly the number of tiles it enqueued. -/
theorem drawLoop_queue_spec (cands : List Nat) (oracle : Nat → Nat) (hne : cands ≠ []) :
    ∀ (count : Nat) (st : CascadeState), st.queue.Nodup →
      (∀ x ∈ cands, x ∉ st.exploded) →
      ∃ pushes, (drawLoop cands oracle count st).1.queue = st.queue ++ pushes ∧
        (st.queue ++ pushes).Nodup ∧
        (∀ x ∈ pushes, x ∈ cands) ∧
        (drawLoop cands oracle count st).2 = pushes.length := by
  intro count
  induction count with
  | zero =>
    intro st hnd _
    exact ⟨[], by simp [drawLoop], by simpa using hnd, by simp, by simp [drawLoop]⟩
  | succ n ih =>
    intro st hnd hexp
    have hpick : cands.getD (oracle st.rng % cands.length) 0 ∈ cands :=
      pick_mem cands hne (oracle st.rng)
    have hexp1 : ∀ x ∈ cands,
        x ∉ (applySpore (cands.getD (oracle st.rng % cands.length) 0) st).1.exploded := by
      intro x hxc
      rw [(applySpore_frame _ st).1]
      exact hexp x hxc
    rcases applySpore_spec (cands.getD (oracle st.rng % cands.length) 0) st with
      ⟨hq1, hc1⟩ | ⟨hfresh, hq1, hc1⟩
    · have hnd1 : (applySpore (cands.getD (oracle st.rng % cands.length) 0) st).1.queue.Nodup := by
        rw [hq1]; exact hnd
      obtain ⟨pushes, hp1, hp2, hp3, hp4⟩ := ih _ hnd1 hexp1
      refine ⟨pushes, ?_, ?_, hp3, ?_⟩
      · rw [show (drawLoop cands oracle (n + 1) st).1 =
            (drawLoop cands oracle n
              (applySpore (cands.getD (oracle st.rng % cands.length) 0) st).1).1 from rfl]
        rw [hp1, hq1]
      · rw [hq1] at hp1 hp2
        exact hp2
      · rw [show (drawLoop cands oracle (n + 1) st).2 =
            (applySpore (cands.getD (oracle st.rng % cands.length) 0) st).2 +
              (drawLoop cands oracle n
                (applySpore (cands.getD (oracle st.rng % cands.length) 0) st).1).2 from rfl]
        rw [hc1, hp4]
        omega
    · have hnd1 : (applySpore (cands.getD (oracle st.rng % cands.length) 0) st).1.queue.Nodup := by
        rw [hq1, List.nodup_append]
        refine ⟨hnd, List.nodup_singleton _, fun x hxq hxm => ?_⟩
        have hx : x = cands.getD (oracle st.rng % cands.length) 0 := by simpa using hxm
        rw [hx] at hxq
        exact hfresh hxq
      obtain ⟨pushes, hp1, hp2, hp3, hp4⟩ := ih _ hnd1 hexp1
      have hcasc1 : (applySpore (cands.getD (oracle st.rng % cands.length) 0) st).2 = 1 := by
        rw [hc1, if_pos (hexp _ hpick)]
      refine ⟨cands.getD (oracle st.rng % cands.length) 0 :: pushes, ?_, ?_, ?_, ?_⟩
      · rw [show (drawLoop cands oracle (n + 1) st).1 =
            (drawLoop cands oracle n
              (applySpore (cands.getD (oracle st.rng % cands.length) 0) st).1).1 from rfl]
        rw [hp1, hq1, List.append_cons]
        simp
      · rw [hq1] at hp2
        rw [List.append_cons]
        exact hp2
      · intro x hxm
        rcases List.mem_cons.mp hxm with rfl | hxm'
        · exact hpick
        · exact hp3 x hxm'
      · rw [show (drawLoop cands oracle (n + 1) st).2 =
            (applySpore (cands.getD (oracle st.rng % cands.length) 0) st).2 +
              (drawLoop cands oracle n
                (applySpore (cands.getD (oracle st.rng % cands.length) 0) st).1).2 from rfl]
        rw [hcasc1, hp4, List.length_cons]
        omega

/-- Spore spreading appends only fresh non-word tiles to the queue, keeps it
duplicate-free, leaves the exploded set and the counter alone, and reports
exactly the number of tiles it enqueued. -/
theorem spread_inv (word : List Nat) (params : GameParams) (stMid : CascadeState)
    (gx gy cnt : Nat) (oracle : Nat → Nat)
    (hnd : stMid.queue.Nodup)
    (hcover : ∀ w ∈ word, w ∈ stMid.queue ∨ w ∈ stMid.exploded) :
    ∃ pushes,
      (spreadSporesWithAdjacency params stMid gx gy cnt oracle).1.queue =
        stMid.queue ++ pushes ∧
      (spreadSporesWithAdjacency params stMid gx gy cnt oracle).1.exploded =
        stMid.exploded ∧
      (spreadSporesWithAdjacency params stMid gx gy cnt oracle).1.cascadeCount =
        stMid.cascadeCount ∧
      (stMid.queue ++ pushes).Nodup ∧
      (∀ x ∈ pushes, x ∉ stMid.exploded ∧ x ∉ word) ∧
      (spreadSporesWithAdjacency params stMid gx gy cnt oracle).2 = pushes.length := by
  unfold spreadSporesWithAdjacency
  by_cases he : (candidates params stMid gx gy).isEmpty
  · rw [if_pos he]
    exact ⟨[], by simp, rfl, rfl, by simpa using hnd, by simp, rfl⟩
  · rw [if_neg he]
    have hne : candidates params stMid gx gy ≠ [] := mt List.isEmpty_iff.mpr he
    have hexc := candidates_excl params stMid gx gy
    obtain ⟨pushes, hp1, hp2, hp3, hp4⟩ :=
      drawLoop_queue_spec _ oracle hne cnt stMid hnd (fun x hx => (hexc x hx).2)
    refine ⟨pushes, hp1, (drawLoop_frame _ _ cnt stMid).1,
      (drawLoop_frame _ _ cnt stMid).2.2, hp2, ?_, hp4⟩
    intro x hx
    have hxc := hp3 x hx
    refine ⟨(hexc x hxc).2, fun hxw => ?_⟩
    rcases hcover x hxw with hq | hxe
    · exact (hexc x hxc).1 hq
    · exact (hexc x hxc).2 hxe

/-- The chain invariant survives `explodeCore`. -/
theorem explodeCore_inv (word : List Nat) (wordLen : Nat) (params : GameParams)
    (oracle : Nat → Nat) (st1 : CascadeState) (gx gy : Nat)
    (heap1 : Nat → TileState) (grid1 : List (List (Option Nat)))
    (hinv : ChainInv word st1) :
    ChainInv word (explodeCore wordLen params oracle st1 gx gy heap1 grid1) := by
  unfold ChainInv at hinv
  obtain ⟨hnd, hdisj, hcover, hcount, hbound⟩ := hinv
  obtain ⟨pushes, hp1, hp2, hp3, hp4, hp5, hp6⟩ :=
    spread_inv word params { st1 with heap := heap1, grid := grid1 } gx gy
      (sporeEmission params wordLen) oracle hnd hcover
  dsimp only at hp1 hp2 hp3 hp4 hp5
  unfold explodeCore ChainInv
  dsimp only
  refine ⟨?_, ?_, ?_, ?_, ?_⟩
  · rw [hp1]; exact hp4
  · intro x hx
    rw [hp1] at hx
    rw [hp2]
    rcases List.mem_append.mp hx with hxq | hxp
    · exact hdisj x hxq
    · exact (hp5 x hxp).1
  · intro w hw
    rcases hcover w hw with hwq | hwe
    · exact Or.inl (by rw [hp1]; exact List.mem_append_left _ hwq)
    · exact Or.inr (by rw [hp2]; exact hwe)
  · rw [hp1, hp2, hp3, hp6]
    have hap : additionalCount word (st1.queue ++ pushes) =
        additionalCount word st1.queue + additionalCount word pushes :=
      List.countP_append ..
    have hfull : additionalCount word pushes = pushes.length :=
      List.countP_eq_length.mpr (fun a ha => by simpa using (hp5 a ha).2)
    omega
  · rw [hp2]; exact hbound

/-- The chain invariant survives one full explosion. -/
theorem chainExplode_inv (word : List Nat) (wordLen : Nat) (params : GameParams)
    (oracle : Nat → Nat) (st1 : CascadeState) (t : Nat)
    (hinv : ChainInv word st1) :
    ChainInv word (chainExplode wordLen params oracle st1 t) := by
  unfold chainExplode
  by_cases hc : cellId st1.grid (st1.heap t).gridY (st1.heap t).gridX = some t
  · rw [if_pos hc]
    exact explodeCore_inv word wordLen params oracle st1 _ _ _ _ hinv
  · rw [if_neg hc]
    cases hloc : locateTile st1.grid t with
    | none => exact hinv
    | some rc => exact explodeCore_inv word wordLen params oracle st1 _ _ _ _ hinv

/-- One chain step preserves the invariant. -/
theorem chainStep_inv (word : List Nat) (wordLen : Nat) (params : GameParams)
    (oracle : Nat → Nat) (st st' : CascadeState)
    (hinv : ChainInv word st)
    (hstep : chainStep wordLen params oracle st = some st') :
    ChainInv word st' := by
  unfold ChainInv at hinv
  obtain ⟨hnd, hdisj, hcover, hcount, hbound⟩ := hinv
  unfold chainStep at hstep
  by_cases hstop : st.queue = [] ∨ maxCascades ≤ st.cascadeCount
  · rw [if_pos hstop] at hstep
    exact absurd hstep (by simp)
  · rw [if_neg hstop] at hstep
    have hcasc : st.cascadeCount < maxCascades := by
      push_neg at hstop
      exact hstop.2
    cases hq : st.queue with
    | nil => exact absurd (Or.inl hq) hstop
    | cons t rest =>
      simp only [hq] at hstep
      by_cases hmem : t ∈ st.exploded
      · exact absurd hmem (hdisj t (hq ▸ List.mem_cons_self t rest))
      · rw [if_neg hmem] at hstep
        injection hstep with hstep
        have hndq := hq ▸ hnd
        have htr : t ∉ rest := (List.nodup_cons.mp hndq).1
        have hndr : rest.Nodup := (List.nodup_cons.mp hndq).2
        have hsplit : additionalCount word st.queue =
            additionalCount word [t] + additionalCount word rest := by
          rw [hq, show t :: rest = [t] ++ rest from rfl]
          exact List.countP_append ..
        have happ : additionalCount word (st.exploded ++ [t]) =
            additionalCount word st.exploded + additionalCount word [t] :=
          List.countP_append ..
        have hm8 : maxCascades = 8 := rfl
        have hinv1 : ChainInv word { st with queue := rest, exploded := st.exploded ++ [t] } := by
          unfold ChainInv
          dsimp only
          refine ⟨hndr, ?_, ?_, ?_, ?_⟩
          · intro x hx hxe
            rcases List.mem_append.mp hxe with hxe' | hxt
            · exact hdisj x (hq ▸ List.mem_cons_of_mem t hx) hxe'
            · have hxeq : x = t := by simpa using hxt
              exact htr (hxeq ▸ hx)
          · intro w hw
            rcases hcover w hw with hwq | hwe
            · rw [hq] at hwq
              rcases List.mem_cons.mp hwq with rfl | hwr
              · exact Or.inr (List.mem_append_right _ (by simp))
              · exact Or.inl hwr
            · exact Or.inr (List.mem_append_left _ hwe)
          · omega
          · omega
        rw [← hstep]
        exact chainExplode_inv word wordLen params oracle _ t hinv1

/-- The invariant is preserved by the whole chain run. -/
theorem runChain_inv (word : List Nat) (wordLen : Nat) (params : GameParams)
    (oracle : Nat → Nat) :
    ∀ (fuel : Nat) (st : CascadeState), ChainInv word st →
      ChainInv word (runChain wordLen params oracle fuel st) := by
  intro fuel
  induction fuel with
  | zero => intro st h; exact h
  | succ n ih =>
    intro st h
    unfold runChain
    cases hs : chainStep wordLen params oracle st with
    | none => exact h
    | some st1 => exact ih st1 (chainStep_inv word wordLen params oracle st st1 h hs)

/-- The invariant holds at `explodeTiles` entry for a duplicate-free word. -/
theorem initChain_inv (grid : List (List (Option Nat))) (heap : Nat → TileState)
    (word : List Nat) (hw : word.Nodup) :
    ChainInv word (initChain grid heap word) := by
  unfold ChainInv initChain
  dsimp only
  refine ⟨hw, ?_, ?_, ?_, ?_⟩
  · intro x _ hx
    simp at hx
  · intro w hw'
    exact Or.inl hw'
  · have h0 : additionalCount word word = 0 :=
      List.countP_eq_zero.mpr (fun a ha => by simpa using ha)
    have h1 : additionalCount word ([] : List Nat) = 0 := rfl
    omega
  · exact Nat.zero_le _

/-- C2: across every run of the explosion chain, starting from the submitted
word with a duplicate-free tile list, the number of additional explosions
beyond the word's own tiles never exceeds `maxCascades = 8`; and the
processing loop stops — silently, abandoning any still-queued tiles — exactly
when the pending queue is empty or `cascadeCount` has reached `maxCascades`. -/
theorem cascade_cap :
    (∀ (wordLen : Nat) (params : GameParams) (oracle : Nat → Nat) (fuel : Nat)
       (grid : List (List (Option Nat))) (heap : Nat → TileState) (word : List Nat),
      word.Nodup →
      additionalCount word
        (runChain wordLen params oracle fuel (initChain grid heap word)).exploded ≤
        maxCascades) ∧
    (∀ (wordLen : Nat) (params : GameParams) (oracle : Nat → Nat) (st : CascadeState),
      st.queue = [] ∨ maxCascades ≤ st.cascadeCount →
      chainStep wordLen params oracle st = none) := by
  constructor
  · intro wordLen params oracle fuel grid heap word hw
    have h := runChain_inv word wordLen params oracle fuel (initChain grid heap word)
      (initChain_inv grid heap word hw)
    unfold ChainInv at h
    exact h.2.2.2.2
  · intro wordLen params oracle st h
    unfold chainStep
    rw [if_pos h]

/-- Witness for `cascade_cap` on a concrete one-tile word and a concrete
stopped state. -/
theorem cascade_cap_witness :
    additionalCount [0]
      (runChain 1 defaultParams (fun _ => 0) 5
        (initChain [[some 0]] (fun _ => sampleTile 0 0) [0])).exploded ≤ maxCascades ∧
    chainStep 1 defaultParams (fun _ => 0)
      (CascadeState.mk [[some 0]] (fun _ => sampleTile 0 0) [] [] 0 0) = none :=
  ⟨cascade_cap.1 1 defaultParams (fun _ => 0) 5 [[some 0]] (fun _ => sampleTile 0 0) [0]
      (by decide),
   cascade_cap.2 1 defaultParams (fun _ => 0)
      (CascadeState.mk [[some 0]] (fun _ => sampleTile 0 0) [] [] 0 0) (Or.inl rfl)⟩

/-- `addSpores` adds exactly its argument to the spore count. -/
theorem addSpores_sporeCount (t : TileState) (c : Nat) :
    ((t.addSpores c).1).sporeCount = t.sporeCount + c := rfl

/-- The heap after one spore landing: only the hit tile changes. -/
theorem applySpore_heap (tid : Nat) (st : CascadeState) :
    (applySpore tid st).1.heap =
      fun i => if i = tid then ((st.heap tid).addSpores 1).1 else st.heap i := by
  unfold applySpore
  split_ifs <;> rfl

/-- Incrementing `f` at one member of a duplicate-free list raises the mapped
sum by exactly one. -/
theorem sum_map_update (f : Nat → Nat) (tid : Nat) :
    ∀ (l : List Nat), l.Nodup → tid ∈ l →
      (l.map (fun i => if i = tid then f i + 1 else f i)).sum = (l.map f).sum + 1 := by
  intro l
  induction l with
  | nil => intro _ h; simp at h
  | cons a l ih =>
    intro hnd hmem
    rcases List.mem_cons.mp hmem with rfl | hm
    · have hnl : tid ∉ l := (List.nodup_cons.mp hnd).1
      have hmap : l.map (fun i => if i = tid then f i + 1 else f i) = l.map f :=
        List.map_congr_left (fun i hi => if_neg (fun he : i = tid => hnl (he ▸ hi)))
      rw [List.map_cons, List.sum_cons, hmap, List.map_cons, List.sum_cons, if_pos rfl]
      omega
    · have hne : a ≠ tid := fun he => (List.nodup_cons.mp hnd).1 (by rw [he]; exact hm)
      rw [List.map_cons, List.sum_cons, if_neg hne, List.map_cons, List.sum_cons]
      rw [ih (List.nodup_cons.mp hnd).2 hm]
      omega

/-- One spore landing on a member of a duplicate-free id list raises that
list's total spore count by one. -/
theorem applySpore_total (D : List Nat) (tid : Nat) (st : CascadeState)
    (hnd : D.Nodup) (hmem : tid ∈ D) :
    heapSporeTotal D (applySpore tid st).1.heap = heapSporeTotal D st.heap + 1 := by
  have hpt : ∀ i, ((applySpore tid st).1.heap i).sporeCount =
      if i = tid then (st.heap i).sporeCount + 1 else (st.heap i).sporeCount := by
    intro i
    rw [applySpore_heap]
    by_cases h : i = tid
    · subst h
      simp [addSpores_sporeCount]
    · simp [h]
  unfold heapSporeTotal
  have hmapeq : D.map (fun i => ((applySpore tid st).1.heap i).sporeCount) =
      D.map (fun i => if i = tid then (st.heap i).sporeCount + 1 else (st.heap i).sporeCount) :=
    List.map_congr_left (fun i _ => hpt i)
  rw [hmapeq]
  exact sum_map_update (fun i => (st.heap i).sporeCount) tid D hnd hmem

/-- Over the whole draw loop the candidate tiles gain exactly one spore per
draw — `count` spores in total. -/
theorem drawLoop_total (cands : List Nat) (oracle : Nat → Nat) (hne : cands ≠ []) :
    ∀ (count : Nat) (st : CascadeState),
      heapSporeTotal cands.dedup (drawLoop cands oracle count st).1.heap =
        heapSporeTotal cands.dedup st.heap + count := by
  intro count
  induction count with
  | zero => intro st; rfl
  | succ n ih =>
    intro st
    have hpick := pick_mem cands hne (oracle st.rng)
    have hmemd : cands.getD (oracle st.rng % cands.length) 0 ∈ cands.dedup :=
      List.mem_dedup.mpr hpick
    rw [show (drawLoop cands oracle (n + 1) st).1 =
        (drawLoop cands oracle n
          (applySpore (cands.getD (oracle st.rng % cands.length) 0) st).1).1 from rfl]
    rw [ih, applySpore_total cands.dedup _ st (List.nodup_dedup cands) hmemd]
    omega

/-- The draw loop never touches a tile outside the candidate list. -/
theorem drawLoop_heap_frame (cands : List Nat) (oracle : Nat → Nat) (hne : cands ≠ []) :
    ∀ (count : Nat) (st : CascadeState) (i : Nat), i ∉ cands →
      (drawLoop cands oracle count st).1.heap i = st.heap i := by
  intro count
  induction count with
  | zero => intro st i _; rfl
  | succ n ih =>
    intro st i hi
    have hpick := pick_mem cands hne (oracle st.rng)
    rw [show (drawLoop cands oracle (n + 1) st).1 =
        (drawLoop cands oracle n
          (applySpore (cands.getD (oracle st.rng % cands.length) 0) st).1).1 from rfl]
    rw [ih _ i hi, applySpore_heap]
    show (if i = cands.getD (oracle st.rng % cands.length) 0 then _ else st.heap i) = st.heap i
    exact if_neg (fun he => hi (by rw [he]; exact hpick))

/-- A spore can only land on an eligible candidate: any tile whose state
changes across `spreadSporesWithAdjacency` is in the candidate list. -/
theorem spread_heap_change (params : GameParams) (st : CascadeState)
    (ox oy cnt : Nat) (oracle : Nat → Nat) (i : Nat)
    (h : (spreadSporesWithAdjacency params st ox oy cnt oracle).1.heap i ≠ st.heap i) :
    i ∈ candidates params st ox oy := by
  by_contra hcon
  apply h
  unfold spreadSporesWithAdjacency
  by_cases he : (candidates params st ox oy).isEmpty
  · rw [if_pos he]
  · rw [if_neg he]
    exact drawLoop_heap_frame _ _ (mt List.isEmpty_iff.mpr he) cnt st i hcon

/-- The code's floor-based radius never exceeds the round-based radius the
spec claims. -/
theorem searchRadius_le_claim (d : Rat) : searchRadius d ≤ claimSearchRadius d := by
  unfold searchRadius claimSearchRadius
  have hf : ⌊d * (3/2)⌋ ≤ ⌊d * (3/2) + 1/2⌋ := Int.floor_le_floor (by linarith)
  exact Int.toNat_le_toNat (max_le_max le_rfl (min_le_min hf le_rfl))

/-- Every scanned offset stays within the search radius in both axes. -/
theorem mem_candidateOffsets (r : Nat) (a : Int × Int) (h : a ∈ candidateOffsets r) :
    a.1.natAbs ≤ r ∧ a.2.natAbs ≤ r := by
  simp only [candidateOffsets, List.mem_flatMap, List.mem_map, List.mem_range] at h
  obtain ⟨i, hi, j, hj, hji⟩ := h
  subst hji
  dsimp only
  omega

/-- Every eligible candidate is a grid tile other than the origin, within
Chebyshev distance `claimSearchRadius` of it, and neither queued nor already
exploded. -/
theorem candidates_geometry (params : GameParams) (st : CascadeState) (ox oy : Nat) :
    ∀ tid ∈ candidates params st ox oy,
      tid ∉ st.queue ∧ tid ∉ st.exploded ∧
      ∃ r c : Nat, cellId st.grid r c = some tid ∧ ¬(r = oy ∧ c = ox) ∧
        ((r : Int) - (oy : Int)).natAbs ≤ claimSearchRadius params.sporeDistribution ∧
        ((c : Int) - (ox : Int)).natAbs ≤ claimSearchRadius params.sporeDistribution := by
  intro x hx
  unfold candidates at hx
  rw [List.mem_filterMap] at hx
  obtain ⟨a, haoff, hfa⟩ := hx
  by_cases h0 : a.2 = (0 : Int) ∧ a.1 = (0 : Int)
  · rw [if_pos h0] at hfa
    exact absurd hfa (by simp)
  · rw [if_neg h0] at hfa
    by_cases hb : 0 ≤ (ox : Int) + a.2 ∧ (ox : Int) + a.2 < (st.grid.length : Int) ∧
        0 ≤ (oy : Int) + a.1 ∧ (oy : Int) + a.1 < (st.grid.length : Int)
    · rw [if_pos hb] at hfa
      cases hcell : cellId st.grid ((oy : Int) + a.1).toNat ((ox : Int) + a.2).toNat with
      | none =>
        simp only [hcell] at hfa
        exact absurd hfa (by simp)
      | some tid =>
        simp only [hcell] at hfa
        by_cases hq : tid ∈ st.queue ∨ tid ∈ st.exploded
        · rw [if_pos hq] at hfa
          exact absurd hfa (by simp)
        · rw [if_neg hq] at hfa
          have htx : tid = x := by simpa using hfa
          subst htx
          push_neg at hq
          obtain ⟨hoff1, hoff2⟩ := mem_candidateOffsets _ a haoff
          have hsr : searchRadius params.sporeDistribution ≤
              claimSearchRadius params.sporeDistribution := searchRadius_le_claim _
          refine ⟨hq.1, hq.2, ((oy : Int) + a.1).toNat, ((ox : Int) + a.2).toNat,
            hcell, ?_, ?_, ?_⟩
          · intro hro
            apply h0
            obtain ⟨hr, hc⟩ := hro
            constructor
            · omega
            · omega
          · omega
          · omega
    · rw [if_neg hb] at hfa
      exact absurd hfa (by simp)

/-- C7 (amended): spores are distributed only to eligible candidates — grid
tiles other than the exploded tile's former cell, within a square
neighborhood of radius `clamp(round(sporeDistribution * 1.5), 1, 5)` (the
code's floor-based radius is at most the claimed round-based one), excluding
pending-queue and exploded tiles — and whenever at least one eligible
candidate exists the per-explosion emission equals
`min(sporeCount, ceil(wordLength / 1.5))`; with no eligible candidate the
code distributes nothing and reports no cascades. -/
theorem spore_distribution_spec :
    (∀ (params : GameParams) (st : CascadeState) (ox oy cnt : Nat)
       (oracle : Nat → Nat) (i : Nat),
       (spreadSporesWithAdjacency params st ox oy cnt oracle).1.heap i ≠ st.heap i →
       i ∈ candidates params st ox oy) ∧
    (∀ (params : GameParams) (st : CascadeState) (ox oy : Nat),
       ∀ tid ∈ candidates params st ox oy,
         tid ∉ st.queue ∧ tid ∉ st.exploded ∧
         ∃ r c : Nat, cellId st.grid r c = some tid ∧ ¬(r = oy ∧ c = ox) ∧
           ((r : Int) - (oy : Int)).natAbs ≤ claimSearchRadius params.sporeDistribution ∧
           ((c : Int) - (ox : Int)).natAbs ≤ claimSearchRadius params.sporeDistribution) ∧
    (∀ (params : GameParams) (st : CascadeState) (ox oy wordLen : Nat)
       (oracle : Nat → Nat),
       candidates params st ox oy ≠ [] →
       heapSporeTotal (candidates params st ox oy).dedup
           (spreadSporesWithAdjacency params st ox oy
             (sporeEmission params wordLen) oracle).1.heap =
         heapSporeTotal (candidates params st ox oy).dedup st.heap +
           min params.sporeCount (Int.toNat ⌈((wordLen : Nat) : Rat) / (3 / 2)⌉)) ∧
    (∀ (params : GameParams) (st : CascadeState) (ox oy cnt : Nat)
       (oracle : Nat → Nat),
       candidates params st ox oy = [] →
       spreadSporesWithAdjacency params st ox oy cnt oracle = (st, 0)) := by
  refine ⟨spread_heap_change, candidates_geometry, ?_, ?_⟩
  · intro params st ox oy wordLen oracle h
    unfold spreadSporesWithAdjacency
    rw [if_neg (fun he => h (List.isEmpty_iff.mp he))]
    exact drawLoop_total _ oracle h (sporeEmission params wordLen) st
  · intro params st ox oy cnt oracle h
    unfold spreadSporesWithAdjacency
    rw [if_pos (List.isEmpty_iff.mpr h)]

/-- Counterexample to the unamended C7 emission clause: exploding the first
tile of a four-tile word in a 2×2 grid leaves every neighbor in the pending
queue, so the candidate list is empty and the code distributes zero spores,
while the claimed per-explosion emission is `min(8, ceil(4 / 1.5)) = 3`. -/
theorem spore_distribution_counterexample :
    candidates defaultParams
      (CascadeState.mk [[none, some 1], [some 2, some 3]]
        (fun _ => sampleTile 0 0) [1, 2, 3] [0] 0 0) 0 0 = [] ∧
    spreadSporesWithAdjacency defaultParams
      (CascadeState.mk [[none, some 1], [some 2, some 3]]
        (fun _ => sampleTile 0 0) [1, 2, 3] [0] 0 0) 0 0
      (sporeEmission defaultParams 4) (fun _ => 0) =
      (CascadeState.mk [[none, some 1], [some 2, some 3]]
        (fun _ => sampleTile 0 0) [1, 2, 3] [0] 0 0, 0) ∧
    sporeEmission defaultParams 4 = 3 := by
  have hfl : searchRadius defaultParams.sporeDistribution = 2 := by
    show (max 1 (min ⌊(3/2 : Rat) * (3/2)⌋ 5)).toNat = 2
    rw [show ⌊(3/2 : Rat) * (3/2)⌋ = 2 by norm_num]
    decide
  have hse : sporeEmission defaultParams 4 = 3 := by
    show min 8 (Int.toNat ⌈((4 : Nat) : Rat) / (3/2)⌉) = 3
    rw [show ⌈((4 : Nat) : Rat) / (3/2)⌉ = 3 by rw [Int.ceil_eq_iff]; norm_num]
    decide
  have hcand : candidates defaultParams
      (CascadeState.mk [[none, some 1], [some 2, some 3]]
        (fun _ => sampleTile 0 0) [1, 2, 3] [0] 0 0) 0 0 = [] := by
    unfold candidates
    rw [hfl]
    decide
  refine ⟨hcand, ?_, hse⟩
  unfold spreadSporesWithAdjacency
  rw [if_pos (List.isEmpty_iff.mpr hcand)]

/-- Witness for `spore_distribution_spec`: in a full 2×2 grid with nothing
queued or exploded, exploding at the origin distributes exactly
`min(8, ceil(4 / 1.5)) = 3` spores over the three eligible neighbors. -/
theorem spore_distribution_spec_witness :
    candidates defaultParams
      (CascadeState.mk [[some 0, some 1], [some 2, some 3]]
        (fun _ => sampleTile 0 0) [] [] 0 0) 0 0 ≠ [] ∧
    heapSporeTotal
      (candidates defaultParams
        (CascadeState.mk [[some 0, some 1], [some 2, some 3]]
          (fun _ => sampleTile 0 0) [] [] 0 0) 0 0).dedup
      (spreadSporesWithAdjacency defaultParams
        (CascadeState.mk [[some 0, some 1], [some 2, some 3]]
          (fun _ => sampleTile 0 0) [] [] 0 0) 0 0
        (sporeEmission defaultParams 4) (fun _ => 0)).1.heap =
    heapSporeTotal
      (candidates defaultParams
        (CascadeState.mk [[some 0, some 1], [some 2, some 3]]
          (fun _ => sampleTile 0 0) [] [] 0 0) 0 0).dedup
      (CascadeState.mk [[some 0, some 1], [some 2, some 3]]
        (fun _ => sampleTile 0 0) [] [] 0 0).heap +
      min defaultParams.sporeCount (Int.toNat ⌈((4 : Nat) : Rat) / (3 / 2)⌉) := by
  have hfl : searchRadius defaultParams.sporeDistribution = 2 := by
    show (max 1 (min ⌊(3/2 : Rat) * (3/2)⌋ 5)).toNat = 2
    rw [show ⌊(3/2 : Rat) * (3/2)⌋ = 2 by norm_num]
    decide
  have hcand : candidates defaultParams
      (CascadeState.mk [[some 0, some 1], [some 2, some 3]]
        (fun _ => sampleTile 0 0) [] [] 0 0) 0 0 ≠ [] := by
    unfold candidates
    rw [hfl]
    decide
  exact ⟨hcand,
    spore_distribution_spec.2.2.1 defaultParams
      (CascadeState.mk [[some 0, some 1], [some 2, some 3]]
        (fun _ => sampleTile 0 0) [] [] 0 0) 0 0 4 (fun _ => 0) hcand⟩

/-- A chain step whose dequeued tile is found at its remembered position and
whose spore spreading finds no eligible candidate: the tile is removed from
the grid and the exploded set grows, with nothing else changing. -/
theorem chainStep_empty_spread (wordLen : Nat) (params : GameParams) (oracle : Nat → Nat)
    (st : CascadeState) (t : Nat) (rest : List Nat)
    (hq : st.queue = t :: rest) (hcasc : st.cascadeCount < maxCascades)
    (hmem : t ∉ st.exploded)
    (hcell : cellId st.grid (st.heap t).gridY (st.heap t).gridX = some t)
    (hcand : candidates params
        { st with
            queue := rest
            exploded := st.exploded ++ [t]
            grid := setCellId st.grid (st.heap t).gridY (st.heap t).gridX none }
        (st.heap t).gridX (st.heap t).gridY = []) :
    chainStep wordLen params oracle st = some
      { st with
          queue := rest
          exploded := st.exploded ++ [t]
          grid := setCellId st.grid (st.heap t).gridY (st.heap t).gridX none } := by
  unfold chainStep
  rw [if_neg (by rw [hq]; push_neg; exact ⟨List.cons_ne_nil t rest, hcasc⟩)]
  simp only [hq]
  rw [if_neg hmem]
  unfold chainExplode
  dsimp only
  rw [if_pos hcell]
  unfold explodeCore spreadSporesWithAdjacency
  dsimp only
  rw [if_pos (List.isEmpty_iff.mpr hcand)]
  dsimp only [Nat.add_zero]

/-- Unrolling one successful chain step under the fuelled runner. -/
theorem runChain_step (w : Nat) (p : GameParams) (o : Nat → Nat) (n : Nat)
    (st s1 : CascadeState) (h : chainStep w p o st = some s1) :
    runChain w p o (n + 1) st = runChain w p o n s1 := by
  show (match chainStep w p o st with
        | none => st
        | some st1 => runChain w p o n st1) = runChain w p o n s1
  rw [h]

/-- The runner is fixed once the step function stops. -/
theorem runChain_end (w : Nat) (p : GameParams) (o : Nat → Nat) (n : Nat)
    (st : CascadeState) (h : chainStep w p o st = none) :
    runChain w p o (n + 1) st = st := by
  show (match chainStep w p o st with
        | none => st
        | some st1 => runChain w p o n st1) = st
  rw [h]

/-- C6 (refuted — code bug): the record `explodeTiles` returns — whose two
numbers the delayed `tilesExploded` event later delivers verbatim to the
external scoring collaborators — is built at return time, after only the
synchronous prefix of the chain has run (through the first tile found in the
grid, whose explosion animation defers the rest), not at chain completion.
Submitting the whole 2×2 grid as a four-tile word: the full chain explodes
all four distinct tiles (with zero cascades), but the returned and emitted
record reports `tilesExploded = 1`. -/
theorem explodeTiles_report_snapshot_bug :
    explodeTilesReturn (initChain bugGrid bugHeap [0, 1, 2, 3]) = (1, 0) ∧
    (runChain 4 defaultParams (fun _ => 0) 5
        (initChain bugGrid bugHeap [0, 1, 2, 3])).exploded = [0, 1, 2, 3] ∧
    (runChain 4 defaultParams (fun _ => 0) 5
        (initChain bugGrid bugHeap [0, 1, 2, 3])).cascadeCount = 0 := by
  have hfl : searchRadius defaultParams.sporeDistribution = 2 := by
    show (max 1 (min ⌊(3/2 : Rat) * (3/2)⌋ 5)).toNat = 2
    rw [show ⌊(3/2 : Rat) * (3/2)⌋ = 2 by norm_num]
    decide
  have hc1 : candidates defaultParams
      (CascadeState.mk [[none, some 1], [some 2, some 3]] bugHeap [1, 2, 3] [0] 0 0)
      0 0 = [] := by
    unfold candidates
    rw [hfl]
    decide
  have hc2 : candidates defaultParams
      (CascadeState.mk [[none, none], [some 2, some 3]] bugHeap [2, 3] [0, 1] 0 0)
      1 0 = [] := by
    unfold candidates
    rw [hfl]
    decide
  have hc3 : candidates defaultParams
      (CascadeState.mk [[none, none], [none, some 3]] bugHeap [3] [0, 1, 2] 0 0)
      0 1 = [] := by
    unfold candidates
    rw [hfl]
    decide
  have hc4 : candidates defaultParams
      (CascadeState.mk [[none, none], [none, none]] bugHeap [] [0, 1, 2, 3] 0 0)
      1 1 = [] := by
    unfold candidates
    rw [hfl]
    decide
  have h1 : chainStep 4 defaultParams (fun _ => 0) (initChain bugGrid bugHeap [0, 1, 2, 3]) =
      some (CascadeState.mk [[none, some 1], [some 2, some 3]] bugHeap [1, 2, 3] [0] 0 0) :=
    chainStep_empty_spread 4 defaultParams (fun _ => 0) _ 0 [1, 2, 3]
      rfl (by decide) (by decide) (by decide) hc1
  have h2 : chainStep 4 defaultParams (fun _ => 0)
      (CascadeState.mk [[none, some 1], [some 2, some 3]] bugHeap [1, 2, 3] [0] 0 0) =
      some (CascadeState.mk [[none, none], [some 2, some 3]] bugHeap [2, 3] [0, 1] 0 0) :=
    chainStep_empty_spread 4 defaultParams (fun _ => 0) _ 1 [2, 3]
      rfl (by decide) (by decide) (by decide) hc2
  have h3 : chainStep 4 defaultParams (fun _ => 0)
      (CascadeState.mk [[none, none], [some 2, some 3]] bugHeap [2, 3] [0, 1] 0 0) =
      some (CascadeState.mk [[none, none], [none, some 3]] bugHeap [3] [0, 1, 2] 0 0) :=
    chainStep_empty_spread 4 defaultParams (fun _ => 0) _ 2 [3]
      rfl (by decide) (by decide) (by decide) hc3
  have h4 : chainStep 4 defaultParams (fun _ => 0)
      (CascadeState.mk [[none, none], [none, some 3]] bugHeap [3] [0, 1, 2] 0 0) =
      some (CascadeState.mk [[none, none], [none, none]] bugHeap [] [0, 1, 2, 3] 0 0) :=
    chainStep_empty_spread 4 defaultParams (fun _ => 0) _ 3 []
      rfl (by decide) (by decide) (by decide) hc4
  have h5 : chainStep 4 defaultParams (fun _ => 0)
      (CascadeState.mk [[none, none], [none, none]] bugHeap [] [0, 1, 2, 3] 0 0) = none := by
    unfold chainStep
    rw [if_pos (Or.inl rfl)]
  have hrun : runChain 4 defaultParams (fun _ => 0) 5 (initChain bugGrid bugHeap [0, 1, 2, 3]) =
      CascadeState.mk [[none, none], [none, none]] bugHeap [] [0, 1, 2, 3] 0 0 :=
    (runChain_step 4 defaultParams (fun _ => 0) 4 _ _ h1).trans
      ((runChain_step 4 defaultParams (fun _ => 0) 3 _ _ h2).trans
        ((runChain_step 4 defaultParams (fun _ => 0) 2 _ _ h3).trans
          ((runChain_step 4 defaultParams (fun _ => 0) 1 _ _ h4).trans
            (runChain_end 4 defaultParams (fun _ => 0) 0 _ h5))))
  refine ⟨by decide, ?_, ?_⟩
  · rw [hrun]
  · rw [hrun]

/-- C10: `Tile.addSpores(count)` adds `count` to the tile's spore count (pure
accumulation, no reset and no cap), returns true exactly when the new count
reaches the tile's spore threshold, and leaves the letter, the grid
coordinates (and the threshold) unchanged. -/
theorem addSpores_accumulates_and_reports_threshold (t : TileState) (count : Nat) :
    (t.addSpores count).1.sporeCount = t.sporeCount + count ∧
    ((t.addSpores count).2 = true ↔ t.sporeThreshold ≤ t.sporeCount + count) ∧
    (t.addSpores count).1.letter = t.letter ∧
    (t.addSpores count).1.gridX = t.gridX ∧
    (t.addSpores count).1.gridY = t.gridY ∧
    (t.addSpores count).1.sporeThreshold = t.sporeThreshold := by
  refine ⟨rfl, ?_, rfl, rfl, rfl, rfl⟩
  simp [TileState.addSpores]

/-- C3: for every non-empty selection and parameter record, the computed word
score is `⌊(sum of letter point values) * (wordLengthFactor if at least 6
tiles are selected, else 1)⌋`.  Determinism is immediate: the score is a pure
function of the selection and the parameters. -/
theorem calculateWordScore_spec (sel : List TileState) (params : GameParams)
    (hne : sel ≠ []) :
    calculateWordScore sel params =
      ⌊((sel.map (fun t => (letterPoints t.letter : Rat))).sum *
        (if 6 ≤ sel.length then params.wordLengthFactor else 1))⌋ := by
  unfold calculateWordScore
  by_cases h : 6 ≤ sel.length <;> simp [h]

/-- In every reachable validator state that is not yet loaded, a fetch is in
flight: the constructor immediately starts the load, and both fetch outcomes
set `loaded`.  Hence the fallback-installing branch of `isValid` is dead on
reachable states. -/
theorem VReachable.loading_of_not_loaded {v : WordValidatorState}
    (h : VReachable v) : v.loaded = false → v.loading = true := by
  induction h with
  | init => intro _; rfl
  | fetchSuccess v ws _ _ => intro hfalse; simp [processDictionary] at hfalse
  | fetchFailure v _ _ => intro hfalse; simp [createFallbackDictionary] at hfalse
  | validate v w _ ih =>
    unfold isValid
    by_cases h3 : w.length < 3
    · simp [h3]; exact ih
    · by_cases hl : v.loaded
      · simp [h3, hl]
      · by_cases hg : v.loading
        · simp [h3, hl, hg]
        · simp [h3, hl, hg, createFallbackDictionary]

/-- C9: while the dictionary oracle is unavailable (a reachable validator
state with `loaded = false`), `isValid` rejects every word; and independently
of any state, every word shorter than 3 letters is rejected. -/
theorem isValid_rejects_until_loaded :
    (∀ v w, VReachable v → v.loaded = false → (isValid v w).2 = false) ∧
    (∀ v w, w.length < 3 → (isValid v w).2 = false) := by
  constructor
  · intro v w hreach hnl
    have hload : v.loading = true := hreach.loading_of_not_loaded hnl
    unfold isValid
    by_cases h3 : w.length < 3
    · simp [h3]
    · simp [h3, hnl, hload]
  · intro v w h3
    simp [isValid, h3]

/-- Witness for `isValid_rejects_until_loaded`: the freshly constructed
validator rejects "CAT", and "AB" is rejected for being short. -/
theorem isValid_rejects_until_loaded_witness :
    (isValid initialValidator "CAT").2 = false ∧
    (isValid initialValidator "AB").2 = false :=
  ⟨isValid_rejects_until_loaded.1 initialValidator "CAT" VReachable.init (by decide),
   isValid_rejects_until_loaded.2 initialValidator "AB" (by decide)⟩

/-- Adjacency is symmetric. -/
theorem isAdjacent_symm (a b : TileState) : isAdjacent a b = isAdjacent b a := by
  unfold isAdjacent
  have h1 : ((a.gridY : Int) - (b.gridY : Int)).natAbs =
      ((b.gridY : Int) - (a.gridY : Int)).natAbs := by omega
  have h2 : ((a.gridX : Int) - (b.gridX : Int)).natAbs =
      ((b.gridX : Int) - (a.gridX : Int)).natAbs := by omega
  have h3 : decide (a ≠ b) = decide (b ≠ a) := decide_eq_decide.mpr ne_comm
  rw [h1, h2, h3]

/-- Appending a fresh tile adjacent to the last selected tile keeps the
selection valid. -/
theorem validSelection_append (sel : List TileState) (t last : TileState)
    (hv : validSelection sel) (hlast : sel.getLast? = some last)
    (hadj : isAdjacent last t = true) (hmem : t ∉ sel) :
    validSelection (sel ++ [t]) := by
  obtain ⟨hnd, hch⟩ := hv
  constructor
  · simp [List.nodup_append, hnd, hmem]
  · refine List.chain'_append.mpr ⟨hch, List.chain'_singleton t, ?_⟩
    intro x hx y hy
    rw [hlast] at hx
    simp at hx hy
    subst hx
    subst hy
    exact hadj

/-- Removing the tile at the end of a duplicate-free selection by
`indexOf`-and-`splice` removes exactly that last element. -/
theorem unselect_last_eq_dropLast (l : List TileState) (a : TileState)
    (hb : a ∉ l) : unselectTileWithAnimation (l ++ [a]) a = l := by
  unfold unselectTileWithAnimation
  rw [List.erase_append_right _ hb]
  simp

/-- Extension with a tile that is not adjacent to the last selected tile is a
no-op. -/
theorem extendStep_nonadjacent (sel : List TileState) (t last : TileState)
    (hlast : sel.getLast? = some last) (hna : isAdjacent last t = false) :
    extendStep sel t = sel := by
  simp [extendStep, hlast, hna]

/-- Extension with an already-selected tile other than the second-to-last
selected tile is a no-op. -/
theorem extendStep_interior (sel : List TileState) (t : TileState)
    (hmem : t ∈ sel) (hidx : (sel.indexOf t : Int) ≠ (sel.length : Int) - 2) :
    extendStep sel t = sel := by
  unfold extendStep
  cases hlast : sel.getLast? with
  | none => rfl
  | some last =>
    by_cases hadj : isAdjacent last t = true
    · simp [hadj, hmem, hidx]
    · simp only [Bool.not_eq_true] at hadj
      simp [hadj]

/-- Extension with the second-to-last selected tile undoes the last
selection. -/
theorem extendStep_backtrack (l : List TileState) (a b : TileState)
    (hv : validSelection (l ++ [a, b])) : extendStep (l ++ [a, b]) a = l ++ [a] := by
  obtain ⟨hnd, hch⟩ := hv
  have hab : l ++ [a, b] = (l ++ [a]) ++ [b] := by simp
  have hlast : (l ++ [a, b]).getLast? = some b := by rw [hab]; simp
  have hnd' : ((l ++ [a]) ++ [b]).Nodup := hab ▸ hnd
  have hanl : a ∉ l := by
    simp [List.nodup_append] at hnd
    tauto
  have hbnla : b ∉ l ++ [a] := by
    rw [List.nodup_append] at hnd'
    intro hmem
    exact hnd'.2.2 hmem (by simp)
  have hadj_ab : isAdjacent a b = true := by
    have hch' : ((l ++ [a]) ++ [b]).Chain' (fun x y => isAdjacent x y = true) := hab ▸ hch
    have := (List.chain'_append.mp hch').2.2
    exact this a (by simp) b (by simp)
  have hadj : isAdjacent b a = true := by rw [isAdjacent_symm]; exact hadj_ab
  have hmem : a ∈ l ++ [a, b] := by simp
  have hidx : ((l ++ [a, b]).indexOf a : Int) = ((l ++ [a, b]).length : Int) - 2 := by
    rw [List.indexOf_append_of_not_mem hanl]
    simp
  have hlen : 1 < (l ++ [a, b]).length := by simp
  unfold extendStep
  rw [hlast]
  dsimp only
  rw [if_pos hadj, if_pos hmem, if_pos hidx, if_pos hlen, hab]
  exact unselect_last_eq_dropLast (l ++ [a]) b hbnla

/-- Extension preserves the selection invariant. -/
theorem extendStep_preserves (sel : List TileState) (t : TileState)
    (hv : validSelection sel) : validSelection (extendStep sel t) := by
  unfold extendStep
  cases hlast : sel.getLast? with
  | none => exact hv
  | some last =>
    dsimp only
    by_cases hadj : isAdjacent last t = true
    · rw [if_pos hadj]
      by_cases hmem : t ∈ sel
      · rw [if_pos hmem]
        by_cases hidx : (sel.indexOf t : Int) = (sel.length : Int) - 2
        · rw [if_pos hidx]
          by_cases hlen : 1 < sel.length
          · rw [if_pos hlen]
            rcases List.eq_nil_or_concat sel with rfl | ⟨l', a, rfl⟩
            · simp at hlast
            · simp only [List.concat_eq_append] at hlast hv ⊢
              have ha : a = last := by
                simpa using hlast
              subst ha
              obtain ⟨hnd, hch⟩ := hv
              have hnotin : a ∉ l' := by
                rw [List.nodup_append] at hnd
                intro hmem'
                exact hnd.2.2 hmem' (by simp)
              rw [unselect_last_eq_dropLast l' a hnotin]
              constructor
              · exact (List.nodup_append.mp hnd).1
              · exact (List.chain'_append.mp hch).1
          · rw [if_neg hlen]; exact hv
        · rw [if_neg hidx]; exact hv
      · rw [if_neg hmem]
        unfold selectTileWithAnimation
        rw [if_neg hmem]
        exact validSelection_append sel t last hv hlast hadj hmem
    · simp only [Bool.not_eq_true] at hadj
      simp [hadj]
      exact hv

/-- The possible values of `Math.sign`. -/
theorem signQ_cases (x : Rat) : signQ x = 0 ∨ signQ x = 1 ∨ signQ x = -1 := by
  unfold signQ
  split_ifs <;> simp

/-- The diagonal-bias selection branch preserves the selection invariant. -/
theorem diagExtendStep_preserves (g : List (List (Option TileState)))
    (sel : List TileState) (d : TileState) (dx dy : Rat) (c : Bool)
    (hco : gridCoherent g) (hv : validSelection sel) :
    validSelection (diagExtendStep g sel d dx dy c) := by
  unfold diagExtendStep
  cases hlast : sel.getLast? with
  | none => exact hv
  | some last =>
    dsimp only
    by_cases hdir : signQ dx ≠ 0 ∧ signQ dy ≠ 0
    · rw [if_pos hdir]
      by_cases hbnd : 0 ≤ (last.gridY : Int) + signQ dy ∧
          (last.gridY : Int) + signQ dy < (g.length : Int) ∧
          0 ≤ (last.gridX : Int) + signQ dx ∧
          (last.gridX : Int) + signQ dx < (g.length : Int)
      · rw [if_pos hbnd]
        cases hcell : getCell g ((last.gridY : Int) + signQ dy).toNat
            ((last.gridX : Int) + signQ dx).toNat with
        | none => exact hv
        | some diagTile =>
          dsimp only
          by_cases hcond : diagTile ∉ sel ∧ diagTile ≠ d ∧ c = true
          · rw [if_pos hcond]
            have hcoh := hco _ _ _ hcell
            have hY : (diagTile.gridY : Int) = (last.gridY : Int) + signQ dy := by
              rw [hcoh.1]
              exact Int.toNat_of_nonneg hbnd.1
            have hX : (diagTile.gridX : Int) = (last.gridX : Int) + signQ dx := by
              rw [hcoh.2]
              exact Int.toNat_of_nonneg hbnd.2.2.1
            have hsy : signQ dy = 1 ∨ signQ dy = -1 := by
              rcases signQ_cases dy with h | h | h
              · exact absurd h hdir.2
              · exact Or.inl h
              · exact Or.inr h
            have hsx : signQ dx = 1 ∨ signQ dx = -1 := by
              rcases signQ_cases dx with h | h | h
              · exact absurd h hdir.1
              · exact Or.inl h
              · exact Or.inr h
            have hne : last ≠ diagTile := by
              intro he
              rw [he] at hY
              rcases hsy with h | h <;> omega
            have hadj : isAdjacent last diagTile = true := by
              unfold isAdjacent
              simp only [Bool.and_eq_true, decide_eq_true_eq]
              refine ⟨hne, ?_, ?_⟩
              · rcases hsy with h | h <;> omega
              · rcases hsx with h | h <;> omega
            unfold selectTileWithAnimation
            rw [if_neg hcond.1]
            exact validSelection_append sel diagTile last hv hlast hadj hcond.1
          · rw [if_neg hcond]; exact hv
      · rw [if_neg hbnd]; exact hv
    · rw [if_neg hdir]; exact hv

/-- C4: at every point of a drag the selection stays valid (no duplicate tile
references, consecutive tiles Chebyshev-adjacent): this holds for a fresh
selection, for the main extension step, and for the diagonal-bias branch.
Moreover extension with a non-adjacent tile or with an already-selected tile
other than the second-to-last one leaves the selection unchanged, and
extension with the second-to-last selected tile removes exactly the last
tile. -/
theorem selection_path_spec :
    (∀ t, validSelection (beginSelection t)) ∧
    (∀ sel t, validSelection sel → validSelection (extendStep sel t)) ∧
    (∀ g sel d dx dy c, gridCoherent g → validSelection sel →
      validSelection (diagExtendStep g sel d dx dy c)) ∧
    (∀ sel t last, sel.getLast? = some last → isAdjacent last t = false →
      extendStep sel t = sel) ∧
    (∀ sel t, t ∈ sel → (sel.indexOf t : Int) ≠ (sel.length : Int) - 2 →
      extendStep sel t = sel) ∧
    (∀ l a b, validSelection (l ++ [a, b]) → extendStep (l ++ [a, b]) a = l ++ [a]) := by
  refine ⟨?_, extendStep_preserves, ?_, extendStep_nonadjacent, extendStep_interior,
    extendStep_backtrack⟩
  · intro t
    unfold beginSelection selectTileWithAnimation
    simp
    exact ⟨List.nodup_singleton t, List.chain'_singleton t⟩
  · intro g sel d dx dy c hco hv
    exact diagExtendStep_preserves g sel d dx dy c hco hv

/-- Witness for `selection_path_spec` on concrete tiles. -/
theorem selection_path_spec_witness :
    validSelection (beginSelection (sampleTile 0 0)) ∧
    validSelection (extendStep [sampleTile 0 0] (sampleTile 1 1)) ∧
    validSelection (diagExtendStep [] [sampleTile 0 0] (sampleTile 1 1) 1 1 true) ∧
    extendStep [sampleTile 0 0, sampleTile 1 0] (sampleTile 3 3) =
      [sampleTile 0 0, sampleTile 1 0] ∧
    extendStep [sampleTile 0 0, sampleTile 1 0, sampleTile 2 0] (sampleTile 0 0) =
      [sampleTile 0 0, sampleTile 1 0, sampleTile 2 0] ∧
    extendStep ([] ++ [sampleTile 0 0, sampleTile 1 0]) (sampleTile 0 0) =
      [] ++ [sampleTile 0 0] := by
  have p : Nat → Nat → TileState := sampleTile
  have hv1 : validSelection [sampleTile 0 0] :=
    ⟨List.nodup_singleton _, List.chain'_singleton _⟩
  have hv2 : validSelection ([] ++ [sampleTile 0 0, sampleTile 1 0]) := by
    constructor
    · decide
    · simp only [List.nil_append]
      refine List.chain'_cons.mpr ⟨by decide, List.chain'_singleton _⟩
  refine ⟨selection_path_spec.1 (sampleTile 0 0),
    selection_path_spec.2.1 [sampleTile 0 0] (sampleTile 1 1) hv1,
    selection_path_spec.2.2.1 [] [sampleTile 0 0] (sampleTile 1 1) 1 1 true ?_ hv1,
    selection_path_spec.2.2.2.1 [sampleTile 0 0, sampleTile 1 0] (sampleTile 3 3)
      (sampleTile 1 0) (by simp) (by decide),
    selection_path_spec.2.2.2.2.1 [sampleTile 0 0, sampleTile 1 0, sampleTile 2 0]
      (sampleTile 0 0) (by simp) (by decide),
    selection_path_spec.2.2.2.2.2 [] (sampleTile 0 0) (sampleTile 1 0) hv2⟩
  intro row col t h
  simp [getCell] at h

/-- Witness for `calculateWordScore_spec` at the concrete selection "CAT". -/
theorem calculateWordScore_spec_witness :
    letI t : Char → TileState :=
      fun c => { id := 0, letter := c, gridX := 0, gridY := 0,
                 sporeCount := 0, sporeThreshold := 2 }
    calculateWordScore [t 'C', t 'A', t 'T'] defaultParams =
      ⌊(([t 'C', t 'A', t 'T'].map (fun s => (letterPoints s.letter : Rat))).sum *
        (if 6 ≤ ([t 'C', t 'A', t 'T'] : List TileState).length
          then defaultParams.wordLengthFactor else 1))⌋ := by
  exact calculateWordScore_spec _ defaultParams (by decide)

end Spores
